import Mathlib

/-! The blocking byte queue of `queue_dyn.h` (ring_buffer).

A shallow embedding of `queue_init`, `queue_put` and `queue_get`.

* `size_t` values are natural numbers; every `size_t` addition and subtraction of the
  source is reduced modulo `2 ^ 64` (`add_sz`, `sub_sz`).
* Memory is a map from offsets to bytes.  `queue_t.buffer` is indexed from the address
  `malloc` returned; the allocation holds `queue_t.size` bytes (lines 31 and 46), so a
  `memcpy` that reaches offset `size` or beyond leaves the allocation.
* Both functions run their body under `q->lock`, and a call that waits in
  `pthread_cond_wait` has changed nothing.  A call is therefore one atomic step whose
  outcome is `blocked` (the condition of its `while` loop holds in this state),
  `undefined` (the call leaves defined behaviour of C) or `returned`.
-/

namespace RingBuffer

/-- One byte of memory (`uint8_t`). -/
abbrev uint8_t := Fin 256

/-- Number of values of `size_t` (64 bit, as `sizeof(size_t)` is the 8-byte record of `test.c`). -/
def SIZE_MOD : Nat := 2 ^ 64

/-- Addition of two `size_t` values. -/
def add_sz (a b : Nat) : Nat := (a + b) % SIZE_MOD

/-- Subtraction of two `size_t` values. -/
def sub_sz (a b : Nat) : Nat := (a + (SIZE_MOD - b % SIZE_MOD)) % SIZE_MOD

/-- The fields of `queue_t` that the sequential behaviour depends on (lines 9 to 20). -/
structure queue_t where
  buffer : Nat → uint8_t
  size : Nat
  head : Nat
  tail : Nat

/-- Outcome of one call of `queue_put` or `queue_get` in a given state. -/
inductive call_result (α : Type) where
  | blocked : call_result α
  | undefined : call_result α
  | returned : α → call_result α
  deriving DecidableEq

/-- Whether the call stays in its wait loop. -/
def call_result.is_blocked {α : Type} : call_result α → Bool
  | .blocked => true
  | _ => false

/-- Whether the call left the defined behaviour of C. -/
def call_result.is_undefined {α : Type} : call_result α → Bool
  | .undefined => true
  | _ => false

/-- Whether the call returned to its caller. -/
def call_result.is_returned {α : Type} : call_result α → Bool
  | .returned _ => true
  | _ => false

/-- Image of a result under a function of the returned value. -/
def call_result.map {α β : Type} (f : α → β) : call_result α → call_result β
  | .blocked => .blocked
  | .undefined => .undefined
  | .returned a => .returned (f a)

/-- Messages `queue_init` can print on `stderr`. -/
inductive diag where
  | no_memory
  | no_mutex
  | no_cond
  deriving DecidableEq

/-- Outcome of `queue_init`: the process was aborted, or the call returned. -/
inductive init_result where
  | aborted : List diag → init_result
  | ready : queue_t → List diag → init_result

/-- Lines 28 to 48.  The inputs are what `malloc` gave (`none` for `NULL`, otherwise the
contents of the fresh allocation, which the code does not clear) and the return codes of
`pthread_mutex_init` and of the two `pthread_cond_init`. -/
def queue_init (malloc_result : Option (Nat → uint8_t))
    (rc_lock rc_readable rc_writeable : Int) (s : Nat) : init_result :=
  match malloc_result with
  | none => .aborted [diag.no_memory]
  | some mem =>
    let e1 := if rc_lock ≠ 0 then [diag.no_mutex] else []
    let e2 := if rc_readable ≠ 0 then [diag.no_cond] else []
    let e3 := if rc_writeable ≠ 0 then [diag.no_cond] else []
    .ready { buffer := mem, size := s, head := 0, tail := 0 } (e1 ++ e2 ++ e3)

/-- The call `memcpy(&dst[d], &src[s], n)` on two disjoint memories. -/
def memcpy (dst : Nat → uint8_t) (d : Nat) (src : Nat → uint8_t) (s : Nat) (n : Nat) :
    Nat → uint8_t :=
  fun j => if d ≤ j ∧ j < d + n then src (s + (j - d)) else dst j

/-- The `n` bytes of `m` from offset `p` on. -/
def bytes (m : Nat → uint8_t) (p n : Nat) : List uint8_t :=
  (List.range n).map (fun i => m (p + i))

/-- Condition of the wait loop of `queue_put` (line 80). -/
def put_waits (q : queue_t) (size : Nat) : Bool :=
  decide (add_sz q.tail size % q.size = q.head)

/-- Condition of the wait loop of `queue_get` (line 105). -/
def get_waits (q : queue_t) : Bool :=
  decide (sub_sz q.tail q.head = 0)

/-- Offsets of `q->buffer` that the `memcpy` of `queue_put` (line 83) writes. -/
def queue_put_indices (q : queue_t) (size : Nat) : List Nat :=
  List.range' q.tail size

/-- Offsets of `q->buffer` that the `memcpy` of `queue_get` (line 108) reads. -/
def queue_get_indices (q : queue_t) (size : Nat) : List Nat :=
  List.range' q.head size

/-- Lines 76 to 91.  `src` and `p` stand for the caller's `*buffer`: the memory it points
into and the offset it holds.  The result is the new queue and the new `*buffer`.
Line 80 divides by `q->size`; line 83 copies `size` bytes to `&q->buffer[q->tail]`. -/
def queue_put (q : queue_t) (src : Nat → uint8_t) (p : Nat) (size : Nat) :
    call_result (queue_t × Nat) :=
  if q.size = 0 then .undefined
  else if put_waits q size then .blocked
  else if q.size < q.tail + size then .undefined
  else
    .returned
      ({ q with
          buffer := memcpy q.buffer q.tail src p size
          tail := add_sz q.tail size % q.size },
       p + size)

/-- Lines 101 to 118.  `dst` and `p` stand for the caller's `*buffer`.  The result is the
new queue, the destination memory, the new `*buffer` and the returned count.
Line 108 copies `size` bytes from `&q->buffer[q->head]`; line 112 divides by `q->size`. -/
def queue_get (q : queue_t) (dst : Nat → uint8_t) (p : Nat) (size : Nat) :
    call_result (queue_t × (Nat → uint8_t) × Nat × Nat) :=
  if get_waits q then .blocked
  else if q.size < q.head + size then .undefined
  else if q.size = 0 then .undefined
  else
    .returned
      ({ q with head := add_sz q.head size % q.size },
       memcpy dst p q.buffer q.head size,
       p + size,
       size)

/-- One call made by the producer or by the consumer. -/
inductive Op where
  | put : (Nat → uint8_t) → Nat → Nat → Op
  | get : (Nat → uint8_t) → Nat → Nat → Op

/-- The `size` argument of the call. -/
def Op.size : Op → Nat
  | .put _ _ n => n
  | .get _ _ n => n

/-- Whether the call is a `queue_put`. -/
def Op.is_put : Op → Bool
  | .put _ _ _ => true
  | .get _ _ _ => false

/-- The queue together with two logs: every byte handed to a returned `queue_put` and
every byte a returned `queue_get` copied out, in call order. -/
structure Sys where
  q : queue_t
  sent : List uint8_t
  recv : List uint8_t

/-- The system around a queue on which no call has been made. -/
def Sys.start (q : queue_t) : Sys := { q := q, sent := [], recv := [] }

/-- Bytes put minus bytes got. -/
def Sys.used (s : Sys) : Int := (s.sent.length : Int) - (s.recv.length : Int)

/-- One call as a step of the system. -/
def step (s : Sys) : Op → call_result Sys
  | .put src p n =>
    match queue_put s.q src p n with
    | .blocked => .blocked
    | .undefined => .undefined
    | .returned (q1, _) => .returned { q := q1, sent := s.sent ++ bytes src p n, recv := s.recv }
  | .get dst p n =>
    match queue_get s.q dst p n with
    | .blocked => .blocked
    | .undefined => .undefined
    | .returned (q1, dst1, _, _) =>
      .returned { q := q1, sent := s.sent, recv := s.recv ++ bytes dst1 p n }

/-- A sequence of calls, each made in the state the previous one left.  The run stops at
the first call that does not return. -/
def run (s : Sys) : List Op → call_result Sys
  | [] => .returned s
  | o :: os =>
    match step s o with
    | .blocked => .blocked
    | .undefined => .undefined
    | .returned s1 => run s1 os

/-- Offsets of `q->buffer` the call reaches with its `memcpy`, when it gets that far. -/
def step_indices (q : queue_t) : Op → List Nat
  | .put _ _ n => if q.size = 0 ∨ put_waits q n = true then [] else queue_put_indices q n
  | .get _ _ n => if get_waits q = true then [] else queue_get_indices q n

/-- Offsets of `q->buffer` reached along a run, the call that ends it included. -/
def run_indices (s : Sys) : List Op → List Nat
  | [] => []
  | o :: os =>
    step_indices s.q o ++
      (match step s o with
       | .returned s1 => run_indices s1 os
       | _ => [])

/-- Observable summary of a state: both cursors and both logs. -/
def Sys.view (s : Sys) : Nat × Nat × List uint8_t × List uint8_t :=
  (s.q.head, s.q.tail, s.sent, s.recv)

/-- A memory holding the given bytes from offset 0 on, and 0 elsewhere. -/
def mem_of (l : List uint8_t) : Nat → uint8_t := fun i => l.getD i 0

/-- The array `in` of `test.c` after lines 71 to 74, as bytes (little endian). -/
def test_in : Nat → uint8_t :=
  fun j => if j < 8 * 65536 then Fin.ofNat ((j / 8) / 256 ^ (j % 8)) else 0

/-- Whether the request fits the state it is made in: a `queue_put` of `n` bytes finds `n`
free bytes, a `queue_get` of `n` bytes finds `n` unread bytes, and the copied range ends
at or before the end of the buffer. -/
def fits (s : Sys) : Op → Bool
  | .put _ _ n =>
    decide ((n : Int) ≤ (s.q.size : Int) - s.used) && decide (s.q.tail + n ≤ s.q.size)
  | .get _ _ n =>
    decide ((n : Int) ≤ s.used) && decide (s.q.head + n ≤ s.q.size)

/-- Whether every call of the run fits in the state it is made in. -/
def run_fits (s : Sys) : List Op → Bool
  | [] => true
  | o :: os =>
    fits s o &&
      (match step s o with
       | .returned s1 => run_fits s1 os
       | _ => true)

/-- The unread bytes are the bytes sent and not yet received, and they sit in the buffer
from `head` on, circularly; `tail` is `head` advanced by their number. -/
structure Inv (C : Nat) (s : Sys) : Prop where
  size_eq : s.q.size = C
  head_lt : s.q.head < C
  le : s.recv.length ≤ s.sent.length
  used_lt : s.sent.length - s.recv.length < C
  tail_eq : s.q.tail = (s.q.head + (s.sent.length - s.recv.length)) % C
  recv_eq : s.recv = s.sent.take s.recv.length
  stored : ∀ i, i < s.sent.length - s.recv.length →
    s.sent[s.recv.length + i]? = some (s.q.buffer ((s.q.head + i) % C))

/-- The invariant of a queue that only ever moves records of `r` bytes: both the read
cursor and the number of unread bytes are multiples of `r`. -/
structure FInv (C r : Nat) (s : Sys) : Prop where
  inv : Inv C s
  head_dvd : r ∣ s.q.head
  used_dvd : r ∣ s.sent.length - s.recv.length

/-- Every unread byte is still in the buffer, at its place counted circularly from `head`. -/
def holds_unread (s : Sys) : Prop :=
  ∀ i, i < s.sent.length - s.recv.length →
    s.sent[s.recv.length + i]? = some (s.q.buffer ((s.q.head + i) % s.q.size))

/-- Number of `queue_put` calls in a sequence of calls. -/
def num_puts (ops : List Op) : Nat := ops.countP Op.is_put

/-- Number of `queue_get` calls in a sequence of calls. -/
def num_gets (ops : List Op) : Nat := ops.countP (fun o => !o.is_put)

/-- First-in first-out delivery for arbitrary request sizes up to the capacity `C`: on a
queue fresh from `queue_init`, any sequence of calls none of which is held in its wait
loop returns, and when as many bytes were got as were put, the bytes got are the bytes
put, in order. -/
def fifo_any_split (C : Nat) : Prop :=
  ∀ (mem : Nat → uint8_t) (rl rr rw : Int) (q : queue_t) (e : List diag) (ops : List Op),
    queue_init (some mem) rl rr rw C = .ready q e →
    (∀ o ∈ ops, o.size ≤ C) →
    (run (Sys.start q) ops).is_blocked = false →
    ∃ s, run (Sys.start q) ops = .returned s ∧ (s.sent.length = s.recv.length → s.recv = s.sent)

/-- Round trip on an empty queue of capacity `C`: a `queue_put` of `k ≤ C` bytes returns, the
`queue_get` of `k` bytes that follows returns the bytes put, and the queue is empty again. -/
def round_trip_any_size (C : Nat) : Prop :=
  ∀ (q : queue_t) (src dst : Nat → uint8_t) (p pd k : Nat),
    q.size = C → q.head = q.tail → q.head < C → k ≤ C →
    ∃ q1 q2 dst1, queue_put q src p k = .returned (q1, p + k) ∧
      queue_get q1 dst pd k = .returned (q2, dst1, pd + k, k) ∧
      bytes dst1 pd k = bytes src p k ∧ q2.head = q2.tail

/-- The queue of `test.c` right after `queue_init(&r.q, 4096)`, on cleared memory. -/
def bench_queue : queue_t := { buffer := mem_of [], size := 4096, head := 0, tail := 0 }

/-- Three rounds of the two loops of `test.c` (lines 49 to 50 and 60 to 61): 8-byte records
taken from `in` and stored to `out`, each cursor advancing by 8. -/
def bench_ops : List Op :=
  [.put test_in 0 8, .put test_in 8 8, .get (mem_of []) 0 8,
   .put test_in 16 8, .get (mem_of []) 8 8, .get (mem_of []) 16 8]

/-- The wait loop of `queue_put` enforces the free space: in every state a sequence of
returned calls of at most `C` bytes each reaches from `queue_init`, a `queue_put` of
`n ≤ C` bytes leaves its wait loop only if `C - used ≥ n`. -/
def put_needs_space (C : Nat) : Prop :=
  ∀ (mem : Nat → uint8_t) (rl rr rw : Int) (q : queue_t) (e : List diag) (ops : List Op)
    (s : Sys) (n : Nat),
    queue_init (some mem) rl rr rw C = .ready q e →
    (∀ o ∈ ops, o.size ≤ C) →
    run (Sys.start q) ops = .returned s →
    n ≤ C → put_waits s.q n = false → (n : Int) ≤ (C : Int) - s.used

/-- The wait loop of `queue_get` enforces the unread bytes: in every state a sequence of
returned calls of at most `C` bytes each reaches from `queue_init`, a `queue_get` of
`n ≤ C` bytes leaves its wait loop only if `used ≥ n`. -/
def get_needs_data (C : Nat) : Prop :=
  ∀ (mem : Nat → uint8_t) (rl rr rw : Int) (q : queue_t) (e : List diag) (ops : List Op)
    (s : Sys) (n : Nat),
    queue_init (some mem) rl rr rw C = .ready q e →
    (∀ o ∈ ops, o.size ≤ C) →
    run (Sys.start q) ops = .returned s →
    n ≤ C → get_waits s.q = false → (n : Int) ≤ s.used

/-- The occupancy stays between 0 and `C` in every state a sequence of returned calls of at
most `C` bytes each reaches from `queue_init`. -/
def occupancy_in_range (C : Nat) : Prop :=
  ∀ (mem : Nat → uint8_t) (rl rr rw : Int) (q : queue_t) (e : List diag) (ops : List Op)
    (s : Sys),
    queue_init (some mem) rl rr rw C = .ready q e →
    (∀ o ∈ ops, o.size ≤ C) →
    run (Sys.start q) ops = .returned s →
    0 ≤ s.used ∧ s.used ≤ (C : Int)

/-- Both cursors and the capacity of a state, when the run returned. -/
def Sys.cursors (s : Sys) : Nat × Nat × Nat := (s.q.size, s.q.head, s.q.tail)

/-- The state a run ends in when every call returned, and the starting state otherwise. -/
def state_after (s : Sys) (ops : List Op) : Sys :=
  match run s ops with
  | .returned s1 => s1
  | _ => s

/-- Two records of 2 bytes put and one got, on any queue. -/
def two_in_one_out : List Op :=
  [.put (mem_of [1, 2, 3, 4]) 0 2, .put (mem_of [1, 2, 3, 4]) 2 2, .get (mem_of []) 0 2]

/-- The cursors agree with the logs modulo the capacity: `tail - head` and the number of
bytes put minus the number of bytes got differ by a multiple of `C`. -/
structure CInv (C : Nat) (s : Sys) : Prop where
  size_eq : s.q.size = C
  head_lt : s.q.head < C
  tail_lt : s.q.tail < C
  congr : (C : Int) ∣ (s.q.tail : Int) - (s.q.head : Int) - s.used

/-- The wait loop of `queue_put` lets every request through that the free space covers: in
every state a sequence of returned calls reaches from `queue_init`, a `queue_put` of
`n ≤ C` bytes with `C - used ≥ n` is not held in its wait loop. -/
def put_proceeds_with_room (C : Nat) : Prop :=
  ∀ (mem : Nat → uint8_t) (rl rr rw : Int) (q : queue_t) (e : List diag) (ops : List Op)
    (s : Sys) (n : Nat),
    queue_init (some mem) rl rr rw C = .ready q e →
    run (Sys.start q) ops = .returned s →
    n ≤ C → (n : Int) ≤ (C : Int) - s.used → put_waits s.q n = false

/-- Puts of 3 and 2 bytes and a get of 4 bytes, on any queue. -/
def mixed_ops : List Op :=
  [.put (mem_of [1, 2, 3]) 0 3, .put (mem_of [4, 5]) 0 2, .get (mem_of []) 0 4]

/-- State of the two loops of `test.c` (lines 43 to 65): the queue, `*publisher_ptr` and
`*consumer_ptr` as offsets into `in` and `out`, the array `out`, the two loop counters, and
the log of the bytes handed to `queue_put`. -/
structure Loops where
  q : queue_t
  publisher_ptr : Nat
  consumer_ptr : Nat
  out : Nat → uint8_t
  sent_count : Nat
  got_count : Nat
  supplied : List uint8_t

/-- The loops before their first iteration (lines 48 and 59). -/
def Loops.start (q : queue_t) (out : Nat → uint8_t) : Loops :=
  { q := q, publisher_ptr := 0, consumer_ptr := 0, out := out, sent_count := 0,
    got_count := 0, supplied := [] }

/-- One iteration of `publisher_loop` (lines 49 to 50) with records of `n` bytes. -/
def publisher_turn (inp : Nat → uint8_t) (n : Nat) (l : Loops) : call_result Loops :=
  match queue_put l.q inp l.publisher_ptr n with
  | .blocked => .blocked
  | .undefined => .undefined
  | .returned (q1, p1) =>
    .returned { l with
      q := q1
      publisher_ptr := p1
      sent_count := l.sent_count + 1
      supplied := l.supplied ++ bytes inp l.publisher_ptr n }

/-- One iteration of `consumer_loop` (lines 60 to 61) with records of `n` bytes. -/
def consumer_turn (n : Nat) (l : Loops) : call_result Loops :=
  match queue_get l.q l.out l.consumer_ptr n with
  | .blocked => .blocked
  | .undefined => .undefined
  | .returned (q1, out1, p1, _) =>
    .returned { l with
      q := q1
      consumer_ptr := p1
      out := out1
      got_count := l.got_count + 1 }

/-- The two loops interleaved: `true` is an iteration of `publisher_loop`, `false` one of
`consumer_loop`.  The run stops at the first call that does not return. -/
def loops_run (inp : Nat → uint8_t) (n : Nat) (l : Loops) : List Bool → call_result Loops
  | [] => .returned l
  | b :: bs =>
    match (if b then publisher_turn inp n l else consumer_turn n l) with
    | .blocked => .blocked
    | .undefined => .undefined
    | .returned l1 => loops_run inp n l1 bs

/-- The loops after a schedule all of whose calls returned, and the start otherwise. -/
def loops_after (inp : Nat → uint8_t) (n : Nat) (l : Loops) (sched : List Bool) : Loops :=
  match loops_run inp n l sched with
  | .returned l1 => l1
  | _ => l

/-- Whether `queue_init` ended in `abort()`. -/
def init_result.is_aborted : init_result → Bool
  | .aborted _ => true
  | .ready _ _ => false

/-- `queue_init` ends the process exactly when the allocation or one of the three
initialisations of a synchronisation primitive fails. -/
def abort_on_any_failure : Prop :=
  ∀ (m : Option (Nat → uint8_t)) (rl rr rw : Int) (s : Nat),
    (queue_init m rl rr rw s).is_aborted = true ↔ (m = none ∨ rl ≠ 0 ∨ rr ≠ 0 ∨ rw ≠ 0)

/-- On an empty queue of capacity `C`, a `queue_put` whose size is any `size_t` multiple of
`C` is held in its wait loop. -/
def whole_buffer_put_waits (C : Nat) : Prop :=
  ∀ (q : queue_t) (src : Nat → uint8_t) (p n : Nat),
    q.size = C → q.head = q.tail → q.head < C → C ∣ n → n < SIZE_MOD →
    (queue_put q src p n).is_blocked = true

/-- Conversion of an `int` value to the return type `uint32_t`. -/
def to_uint32 (x : Int) : Nat := (x % 2 ^ 32).toNat

/-- A `uint32_t` value read as a signed 32-bit integer (two's complement). -/
def as_int32 (x : Nat) : Int := if x < 2 ^ 31 then (x : Int) else (x : Int) - 2 ^ 32

/-- Lines 12 to 21 of `test.c`; `f` and `s` are the values read through the two pointers. -/
def comp (f s : Nat) : Nat :=
  if f > s then to_uint32 1
  else if f < s then to_uint32 (-1)
  else to_uint32 0

/-! ## Arithmetic -/

theorem mod_lt_two (a C : Nat) (h : a < 2 * C) :
    (a < C ∧ a % C = a) ∨ (C ≤ a ∧ a % C = a - C) := by
  by_cases hlt : a < C
  · exact Or.inl ⟨hlt, Nat.mod_eq_of_lt hlt⟩
  · have hge : C ≤ a := Nat.le_of_not_lt hlt
    refine Or.inr ⟨hge, ?_⟩
    rw [Nat.mod_eq_sub_mod hge]
    exact Nat.mod_eq_of_lt (by omega)

theorem add_sz_of_lt (a b : Nat) (h : a + b < SIZE_MOD) : add_sz a b = a + b := by
  unfold add_sz
  exact Nat.mod_eq_of_lt h

theorem sub_sz_eq_zero_iff (a b : Nat) (ha : a < SIZE_MOD) (hb : b < SIZE_MOD) :
    sub_sz a b = 0 ↔ a = b := by
  unfold sub_sz
  rw [Nat.mod_eq_of_lt hb]
  constructor
  · intro h
    rcases mod_lt_two (a + (SIZE_MOD - b)) SIZE_MOD (by omega) with ⟨_, h2⟩ | ⟨_, h2⟩
    · rw [h2] at h; omega
    · rw [h2] at h; omega
  · intro h
    subst h
    have : a + (SIZE_MOD - a) = SIZE_MOD := by omega
    rw [this, Nat.mod_self]

theorem dvd_add_le_of_lt (r a b : Nat) (ha : r ∣ a) (hb : r ∣ b) (h : a < b) : a + r ≤ b := by
  obtain ⟨x, rfl⟩ := ha
  obtain ⟨y, rfl⟩ := hb
  have hxy : x < y := Nat.lt_of_mul_lt_mul_left h
  calc r * x + r = r * (x + 1) := by ring
    _ ≤ r * y := Nat.mul_le_mul_left r hxy

/-! ## The two calls, case by case -/

theorem queue_init_ready (mem : Nat → uint8_t) (rl rr rw : Int) (C : Nat) (q : queue_t)
    (e : List diag) (h : queue_init (some mem) rl rr rw C = .ready q e) :
    q = { buffer := mem, size := C, head := 0, tail := 0 } := by
  simp only [queue_init] at h
  injection h with h1 _
  exact h1.symm

theorem queue_put_returned (q : queue_t) (src : Nat → uint8_t) (p n : Nat)
    (r : queue_t × Nat) (h : queue_put q src p n = .returned r) :
    q.size ≠ 0 ∧ put_waits q n = false ∧ q.tail + n ≤ q.size ∧
      r = ({ q with
              buffer := memcpy q.buffer q.tail src p n
              tail := add_sz q.tail n % q.size }, p + n) := by
  unfold queue_put at h
  split_ifs at h with h1 h2 h3
  injection h with h
  exact ⟨h1, by simpa using h2, by omega, h.symm⟩

theorem queue_get_returned (q : queue_t) (dst : Nat → uint8_t) (p n : Nat)
    (r : queue_t × (Nat → uint8_t) × Nat × Nat) (h : queue_get q dst p n = .returned r) :
    q.size ≠ 0 ∧ get_waits q = false ∧ q.head + n ≤ q.size ∧
      r = ({ q with head := add_sz q.head n % q.size },
            memcpy dst p q.buffer q.head n, p + n, n) := by
  unfold queue_get at h
  split_ifs at h with h1 h2 h3
  injection h with h
  exact ⟨h3, by simpa using h1, by omega, h.symm⟩

theorem queue_put_of (q : queue_t) (src : Nat → uint8_t) (p n : Nat)
    (h0 : q.size ≠ 0) (hw : put_waits q n = false) (hb : q.tail + n ≤ q.size) :
    queue_put q src p n =
      .returned ({ q with
                    buffer := memcpy q.buffer q.tail src p n
                    tail := add_sz q.tail n % q.size }, p + n) := by
  unfold queue_put
  rw [if_neg h0, hw, if_neg (Nat.not_lt.mpr hb)]
  simp

theorem queue_get_of (q : queue_t) (dst : Nat → uint8_t) (p n : Nat)
    (h0 : q.size ≠ 0) (hw : get_waits q = false) (hb : q.head + n ≤ q.size) :
    queue_get q dst p n =
      .returned ({ q with head := add_sz q.head n % q.size },
                  memcpy dst p q.buffer q.head n, p + n, n) := by
  unfold queue_get
  rw [hw, if_neg (Nat.not_lt.mpr hb), if_neg h0]
  simp

theorem bytes_length (m : Nat → uint8_t) (p n : Nat) : (bytes m p n).length = n := by
  simp [bytes]

theorem bytes_getElem? (m : Nat → uint8_t) (p n k : Nat) (hk : k < n) :
    (bytes m p n)[k]? = some (m (p + k)) := by
  simp [bytes, List.getElem?_map, List.getElem?_range hk]

theorem bytes_memcpy (dst src : Nat → uint8_t) (p s n : Nat) :
    bytes (memcpy dst p src s n) p n = bytes src s n := by
  unfold bytes
  apply List.map_congr_left
  intro i hi
  have hi2 : i < n := List.mem_range.mp hi
  simp [memcpy, hi2]

theorem step_put_returned (s : Sys) (src : Nat → uint8_t) (p n : Nat) (s1 : Sys)
    (h : step s (.put src p n) = .returned s1) :
    s.q.size ≠ 0 ∧ put_waits s.q n = false ∧ s.q.tail + n ≤ s.q.size ∧
      s1 = { q := { s.q with
                      buffer := memcpy s.q.buffer s.q.tail src p n
                      tail := add_sz s.q.tail n % s.q.size }
             sent := s.sent ++ bytes src p n
             recv := s.recv } := by
  cases hq : queue_put s.q src p n with
  | blocked => simp [step, hq] at h
  | undefined => simp [step, hq] at h
  | returned r =>
    obtain ⟨h0, hw, hb, hr⟩ := queue_put_returned s.q src p n r hq
    subst hr
    simp only [step, hq] at h
    injection h with h
    exact ⟨h0, hw, hb, h.symm⟩

theorem step_get_returned (s : Sys) (dst : Nat → uint8_t) (p n : Nat) (s1 : Sys)
    (h : step s (.get dst p n) = .returned s1) :
    s.q.size ≠ 0 ∧ get_waits s.q = false ∧ s.q.head + n ≤ s.q.size ∧
      s1 = { q := { s.q with head := add_sz s.q.head n % s.q.size }
             sent := s.sent
             recv := s.recv ++ bytes s.q.buffer s.q.head n } := by
  cases hq : queue_get s.q dst p n with
  | blocked => simp [step, hq] at h
  | undefined => simp [step, hq] at h
  | returned r =>
    obtain ⟨h0, hw, hb, hr⟩ := queue_get_returned s.q dst p n r hq
    subst hr
    simp only [step, hq, bytes_memcpy] at h
    injection h with h
    exact ⟨h0, hw, hb, h.symm⟩

theorem step_put_of (s : Sys) (src : Nat → uint8_t) (p n : Nat)
    (h0 : s.q.size ≠ 0) (hw : put_waits s.q n = false) (hb : s.q.tail + n ≤ s.q.size) :
    step s (.put src p n) =
      .returned { q := { s.q with
                          buffer := memcpy s.q.buffer s.q.tail src p n
                          tail := add_sz s.q.tail n % s.q.size }
                  sent := s.sent ++ bytes src p n
                  recv := s.recv } := by
  simp only [step, queue_put_of s.q src p n h0 hw hb]

theorem step_get_of (s : Sys) (dst : Nat → uint8_t) (p n : Nat)
    (h0 : s.q.size ≠ 0) (hw : get_waits s.q = false) (hb : s.q.head + n ≤ s.q.size) :
    step s (.get dst p n) =
      .returned { q := { s.q with head := add_sz s.q.head n % s.q.size }
                  sent := s.sent
                  recv := s.recv ++ bytes s.q.buffer s.q.head n } := by
  simp only [step, queue_get_of s.q dst p n h0 hw hb, bytes_memcpy]

/-! ## The invariant -/

theorem inv_tail_lt {C : Nat} {s : Sys} (hI : Inv C s) : s.q.tail < C := by
  rw [hI.tail_eq]
  exact Nat.mod_lt _ (by have := hI.head_lt; omega)

theorem inv_start (q : queue_t) (C : Nat) (hC : 0 < C) (hs : q.size = C) (hh : q.head = 0)
    (ht : q.tail = 0) : Inv C (Sys.start q) where
  size_eq := hs
  head_lt := by show q.head < C; rw [hh]; exact hC
  le := by simp [Sys.start]
  used_lt := by simpa [Sys.start] using hC
  tail_eq := by simp [Sys.start, hh, ht]
  recv_eq := by simp [Sys.start]
  stored := by intro i hi; simp [Sys.start] at hi

theorem inv_put {C : Nat} {s s1 : Sys} (hI : Inv C s) (hC : C < SIZE_MOD)
    (src : Nat → uint8_t) (p n : Nat)
    (hfit : s.sent.length - s.recv.length + n ≤ C)
    (h : step s (.put src p n) = .returned s1) : Inv C s1 := by
  obtain ⟨h0, hw, hb, rfl⟩ := step_put_returned s src p n s1 h
  have hsz := hI.size_eq
  have hh := hI.head_lt
  have hle := hI.le
  have hu := hI.used_lt
  have ht := hI.tail_eq
  rw [hsz] at hb
  have hadd : add_sz s.q.tail n = s.q.tail + n := add_sz_of_lt _ _ (by omega)
  have hnw : (s.q.tail + n) % C ≠ s.q.head := by
    simpa [put_waits, hadd, hsz] using hw
  have hcase := mod_lt_two (s.q.head + (s.sent.length - s.recv.length)) C (by omega)
  rw [← ht] at hcase
  have hne : s.sent.length - s.recv.length + n ≠ C := by
    intro heq
    apply hnw
    rcases hcase with ⟨h1, h2⟩ | ⟨h1, h2⟩
    · have : s.q.tail + n = C := by omega
      rw [this, Nat.mod_self]; omega
    · have : s.q.tail + n = s.q.head := by omega
      rw [this]; exact Nat.mod_eq_of_lt hh
  refine ⟨hsz, hh, ?_, ?_, ?_, ?_, ?_⟩
  · simp only [List.length_append, bytes_length]; omega
  · simp only [List.length_append, bytes_length]; omega
  · simp only [List.length_append, bytes_length, hsz, hadd]
    have e : s.sent.length + n - s.recv.length = s.sent.length - s.recv.length + n := by omega
    rw [e]
    rcases hcase with ⟨h1, h2⟩ | ⟨h1, h2⟩
    · rw [h2]; congr 1; omega
    · have : s.q.head + (s.sent.length - s.recv.length + n) = s.q.tail + n + C := by omega
      rw [this, Nat.add_mod_right]
  · show s.recv = (s.sent ++ bytes src p n).take s.recv.length
    rw [List.take_append_of_le_length hle]
    exact hI.recv_eq
  · intro i hi
    simp only [List.length_append, bytes_length] at hi
    show (s.sent ++ bytes src p n)[s.recv.length + i]? =
      some (memcpy s.q.buffer s.q.tail src p n ((s.q.head + i) % C))
    have hci := mod_lt_two (s.q.head + i) C (by omega)
    by_cases hiu : i < s.sent.length - s.recv.length
    · rw [List.getElem?_append_left (by omega), hI.stored i hiu]
      have hout : ¬ (s.q.tail ≤ (s.q.head + i) % C ∧ (s.q.head + i) % C < s.q.tail + n) := by
        rcases hcase with ⟨h1, h2⟩ | ⟨h1, h2⟩ <;> rcases hci with ⟨h3, h4⟩ | ⟨h3, h4⟩ <;>
          rw [h4] <;> omega
      simp only [memcpy, if_neg hout]
    · rw [List.getElem?_append_right (by omega),
        bytes_getElem? src p n _ (by omega)]
      have hin : (s.q.head + i) % C = s.q.tail + (s.recv.length + i - s.sent.length) := by
        rcases hcase with ⟨h1, h2⟩ | ⟨h1, h2⟩ <;> rcases hci with ⟨h3, h4⟩ | ⟨h3, h4⟩ <;>
          rw [h4] <;> omega
      rw [hin]
      have hmem : s.q.tail ≤ s.q.tail + (s.recv.length + i - s.sent.length) ∧
          s.q.tail + (s.recv.length + i - s.sent.length) < s.q.tail + n := by omega
      simp only [memcpy, if_pos hmem, Nat.add_sub_cancel_left]

theorem get_waits_iff {C : Nat} {s : Sys} (hI : Inv C s) (hC : C < SIZE_MOD) :
    get_waits s.q = true ↔ s.sent.length = s.recv.length := by
  have hh := hI.head_lt
  have ht := (inv_tail_lt hI)
  have hle := hI.le
  have hu := hI.used_lt
  have hte := hI.tail_eq
  simp only [get_waits, decide_eq_true_eq]
  rw [sub_sz_eq_zero_iff _ _ (by omega) (by omega)]
  rcases mod_lt_two (s.q.head + (s.sent.length - s.recv.length)) C (by omega) with
    ⟨h1, h2⟩ | ⟨h1, h2⟩ <;> rw [← hte] at h2 <;> omega

theorem bytes_eq_take_drop {C : Nat} {s : Sys} (hI : Inv C s) (m : Nat)
    (hm : m ≤ s.sent.length - s.recv.length) (hb : s.q.head + m ≤ C) :
    bytes s.q.buffer s.q.head m = (s.sent.drop s.recv.length).take m := by
  apply List.ext_getElem?
  intro k
  by_cases hk : k < m
  · rw [bytes_getElem? _ _ _ _ hk, List.getElem?_take_of_lt hk, List.getElem?_drop,
      hI.stored k (by omega), Nat.mod_eq_of_lt (by omega)]
  · have h1 : (bytes s.q.buffer s.q.head m)[k]? = none :=
      List.getElem?_eq_none (by rw [bytes_length]; omega)
    have h2 : ((s.sent.drop s.recv.length).take m)[k]? = none :=
      List.getElem?_eq_none (by rw [List.length_take]; omega)
    rw [h1, h2]

theorem inv_get {C : Nat} {s s1 : Sys} (hI : Inv C s) (hC : C < SIZE_MOD)
    (dst : Nat → uint8_t) (p m : Nat)
    (hfit : m ≤ s.sent.length - s.recv.length)
    (h : step s (.get dst p m) = .returned s1) : Inv C s1 := by
  obtain ⟨h0, hw, hb, rfl⟩ := step_get_returned s dst p m s1 h
  have hsz := hI.size_eq
  have hh := hI.head_lt
  have hle := hI.le
  have hu := hI.used_lt
  have ht := hI.tail_eq
  rw [hsz] at hb
  have hadd : add_sz s.q.head m = s.q.head + m := add_sz_of_lt _ _ (by omega)
  have hby := bytes_eq_take_drop hI m hfit hb
  have hhead : ∀ j, ((s.q.head + m) % C + j) % C = (s.q.head + (m + j)) % C := by
    intro j
    rw [Nat.add_mod, Nat.mod_mod, ← Nat.add_mod, Nat.add_assoc]
  refine ⟨hsz, ?_, ?_, ?_, ?_, ?_, ?_⟩
  · show add_sz s.q.head m % s.q.size < C
    rw [hsz]; exact Nat.mod_lt _ (by omega)
  · simp only [List.length_append, bytes_length]; omega
  · simp only [List.length_append, bytes_length]; omega
  · simp only [List.length_append, bytes_length, hsz, hadd]
    rw [hhead, ht]; congr 2; omega
  · show s.recv ++ bytes s.q.buffer s.q.head m =
      s.sent.take (s.recv ++ bytes s.q.buffer s.q.head m).length
    rw [List.length_append, bytes_length, List.take_add, ← hI.recv_eq, hby]
  · intro i hi
    simp only [List.length_append, bytes_length] at hi
    show s.sent[(s.recv ++ bytes s.q.buffer s.q.head m).length + i]? =
      some (s.q.buffer ((add_sz s.q.head m % s.q.size + i) % C))
    rw [List.length_append, bytes_length, hsz, hadd, hhead, Nat.add_assoc]
    exact hI.stored (m + i) (by omega)

theorem put_waits_of_not_blocked (s : Sys) (src : Nat → uint8_t) (p n : Nat)
    (h0 : s.q.size ≠ 0) (hnb : (step s (.put src p n)).is_blocked = false) :
    put_waits s.q n = false := by
  cases hv : put_waits s.q n with
  | false => rfl
  | true => simp [step, queue_put, h0, hv, call_result.is_blocked] at hnb

theorem get_waits_of_not_blocked (s : Sys) (dst : Nat → uint8_t) (p n : Nat)
    (hnb : (step s (.get dst p n)).is_blocked = false) :
    get_waits s.q = false := by
  cases hv : get_waits s.q with
  | false => rfl
  | true => simp [step, queue_get, hv, call_result.is_blocked] at hnb

theorem step_not_blocked_of_run (s : Sys) (o : Op) (os : List Op)
    (hnb : (run s (o :: os)).is_blocked = false) : (step s o).is_blocked = false := by
  cases hs : RingBuffer.step s o with
  | blocked => simp [RingBuffer.run, hs, call_result.is_blocked] at hnb
  | undefined => rfl
  | returned s2 => rfl

theorem fits_put_iff {C : Nat} {s : Sys} (hI : Inv C s) (src : Nat → uint8_t) (p n : Nat) :
    fits s (.put src p n) = true ↔
      s.sent.length - s.recv.length + n ≤ C ∧ s.q.tail + n ≤ C := by
  have hle := hI.le
  have hsz := hI.size_eq
  simp only [fits, Sys.used, Bool.and_eq_true, decide_eq_true_eq, hsz]
  omega

theorem fits_get_iff {C : Nat} {s : Sys} (hI : Inv C s) (dst : Nat → uint8_t) (p n : Nat) :
    fits s (.get dst p n) = true ↔
      n ≤ s.sent.length - s.recv.length ∧ s.q.head + n ≤ C := by
  have hle := hI.le
  have hsz := hI.size_eq
  simp only [fits, Sys.used, Bool.and_eq_true, decide_eq_true_eq, hsz]
  omega

theorem inv_step {C : Nat} {s : Sys} (hI : Inv C s) (hC : C < SIZE_MOD) (o : Op)
    (hfit : fits s o = true) (hnb : (step s o).is_blocked = false) :
    ∃ s1, step s o = .returned s1 ∧ Inv C s1 := by
  have hh := hI.head_lt
  have hsz := hI.size_eq
  have h0 : s.q.size ≠ 0 := by omega
  cases o with
  | put src p n =>
    obtain ⟨hf1, hf2⟩ := (fits_put_iff hI src p n).mp hfit
    have hstep := step_put_of s src p n h0 (put_waits_of_not_blocked s src p n h0 hnb)
      (by omega)
    exact ⟨_, hstep, inv_put hI hC src p n hf1 hstep⟩
  | get dst p n =>
    obtain ⟨hf1, hf2⟩ := (fits_get_iff hI dst p n).mp hfit
    have hstep := step_get_of s dst p n h0 (get_waits_of_not_blocked s dst p n hnb)
      (by omega)
    exact ⟨_, hstep, inv_get hI hC dst p n hf1 hstep⟩

theorem inv_run {C : Nat} (hC : C < SIZE_MOD) (ops : List Op) :
    ∀ (s : Sys), Inv C s → (run s ops).is_blocked = false → run_fits s ops = true →
      ∃ s1, run s ops = .returned s1 ∧ Inv C s1 := by
  induction ops with
  | nil =>
    intro s hI _ _
    exact ⟨s, rfl, hI⟩
  | cons o os ih =>
    intro s hI hnb hf
    have hf1 : fits s o = true := by
      simp only [run_fits, Bool.and_eq_true] at hf
      exact hf.1
    obtain ⟨s2, hs, hI2⟩ := inv_step hI hC o hf1 (step_not_blocked_of_run s o os hnb)
    have hnb2 : (RingBuffer.run s2 os).is_blocked = false := by
      simpa [RingBuffer.run, hs] using hnb
    have hf2 : run_fits s2 os = true := by
      simp only [run_fits, hs, Bool.and_eq_true] at hf
      exact hf.2
    obtain ⟨s3, k1, k2⟩ := ih s2 hI2 hnb2 hf2
    exact ⟨s3, by simp [RingBuffer.run, hs, k1], k2⟩

theorem inv_recv_eq_sent {C : Nat} {s : Sys} (hI : Inv C s)
    (h : s.sent.length = s.recv.length) : s.recv = s.sent := by
  have := hI.recv_eq
  rw [← h, List.take_length] at this
  exact this

theorem inv_holds_unread {C : Nat} {s : Sys} (hI : Inv C s) : holds_unread s := by
  intro i hi
  rw [hI.size_eq]
  exact hI.stored i hi

/-! ## Records of one size dividing the capacity -/

theorem finv_tail_dvd {C r : Nat} {s : Sys} (hF : FInv C r s) (hd : r ∣ C) : r ∣ s.q.tail := by
  rw [hF.inv.tail_eq, Nat.dvd_mod_iff hd]
  exact Nat.dvd_add hF.head_dvd hF.used_dvd

theorem finv_start (q : queue_t) (C r : Nat) (hC : 0 < C) (hs : q.size = C) (hh : q.head = 0)
    (ht : q.tail = 0) : FInv C r (Sys.start q) where
  inv := inv_start q C hC hs hh ht
  head_dvd := by show r ∣ q.head; rw [hh]; exact Nat.dvd_zero r
  used_dvd := by simp [Sys.start]

theorem finv_put {C r : Nat} {s : Sys} (hF : FInv C r s) (hd : r ∣ C)
    (hC : C < SIZE_MOD) (src : Nat → uint8_t) (p : Nat)
    (hnb : (step s (.put src p r)).is_blocked = false) :
    ∃ s1, step s (.put src p r) = .returned s1 ∧ FInv C r s1 ∧
      (∀ i ∈ step_indices s.q (.put src p r), i < C) ∧
      s1.sent.length = s.sent.length + r ∧ s1.recv.length = s.recv.length := by
  have hI := hF.inv
  have hsz := hI.size_eq
  have hh := hI.head_lt
  have hle := hI.le
  have h0 : s.q.size ≠ 0 := by omega
  have hw : put_waits s.q r = false := put_waits_of_not_blocked s src p r h0 hnb
  have hb : s.q.tail + r ≤ C := dvd_add_le_of_lt r _ _ (finv_tail_dvd hF hd) hd (inv_tail_lt hI)
  have hfit : s.sent.length - s.recv.length + r ≤ C :=
    dvd_add_le_of_lt r _ _ hF.used_dvd hd hI.used_lt
  have hstep := step_put_of s src p r h0 hw (by omega)
  refine ⟨_, hstep, ⟨inv_put hI hC src p r hfit hstep, hF.head_dvd, ?_⟩, ?_, ?_, rfl⟩
  · show r ∣ (s.sent ++ bytes src p r).length - s.recv.length
    have e : (s.sent ++ bytes src p r).length - s.recv.length =
        s.sent.length - s.recv.length + r := by
      rw [List.length_append, bytes_length]; omega
    rw [e]
    exact Nat.dvd_add hF.used_dvd (Nat.dvd_refl r)
  · intro i hi
    simp only [step_indices, hw, h0, false_or, Bool.false_eq_true, if_false,
      queue_put_indices, List.mem_range'_1] at hi
    omega
  · show (s.sent ++ bytes src p r).length = s.sent.length + r
    rw [List.length_append, bytes_length]

theorem finv_get {C r : Nat} {s : Sys} (hF : FInv C r s) (hd : r ∣ C)
    (hC : C < SIZE_MOD) (dst : Nat → uint8_t) (p : Nat)
    (hnb : (step s (.get dst p r)).is_blocked = false) :
    ∃ s1, step s (.get dst p r) = .returned s1 ∧ FInv C r s1 ∧
      (∀ i ∈ step_indices s.q (.get dst p r), i < C) ∧
      s1.sent.length = s.sent.length ∧ s1.recv.length = s.recv.length + r := by
  have hI := hF.inv
  have hsz := hI.size_eq
  have hh := hI.head_lt
  have hle := hI.le
  have h0 : s.q.size ≠ 0 := by omega
  have hw : get_waits s.q = false := get_waits_of_not_blocked s dst p r hnb
  have hne : s.sent.length ≠ s.recv.length := by
    intro he
    rw [(get_waits_iff hI hC).mpr he] at hw
    exact Bool.noConfusion hw
  have hb : s.q.head + r ≤ C := dvd_add_le_of_lt r _ _ hF.head_dvd hd hh
  have hfit : r ≤ s.sent.length - s.recv.length :=
    Nat.le_of_dvd (by omega) hF.used_dvd
  have hstep := step_get_of s dst p r h0 hw (by omega)
  have hadd : add_sz s.q.head r = s.q.head + r := add_sz_of_lt _ _ (by omega)
  refine ⟨_, hstep, ⟨inv_get hI hC dst p r hfit hstep, ?_, ?_⟩, ?_, rfl, ?_⟩
  · show r ∣ add_sz s.q.head r % s.q.size
    rw [hsz, hadd, Nat.dvd_mod_iff hd]
    exact Nat.dvd_add hF.head_dvd (Nat.dvd_refl r)
  · show r ∣ s.sent.length - (s.recv ++ bytes s.q.buffer s.q.head r).length
    have e : s.sent.length - (s.recv ++ bytes s.q.buffer s.q.head r).length =
        s.sent.length - s.recv.length - r := by
      rw [List.length_append, bytes_length]; omega
    rw [e]
    exact Nat.dvd_sub' hF.used_dvd (Nat.dvd_refl r)
  · intro i hi
    simp only [step_indices, hw, Bool.false_eq_true, if_false,
      queue_get_indices, List.mem_range'_1] at hi
    omega
  · show (s.recv ++ bytes s.q.buffer s.q.head r).length = s.recv.length + r
    rw [List.length_append, bytes_length]

theorem finv_run {C r : Nat} (hd : r ∣ C) (hC : C < SIZE_MOD) (ops : List Op) :
    ∀ (s : Sys), FInv C r s → (∀ o ∈ ops, o.size = r) → (run s ops).is_blocked = false →
      ∃ s1, run s ops = .returned s1 ∧ FInv C r s1 ∧ (∀ i ∈ run_indices s ops, i < C) ∧
        s1.sent.length = s.sent.length + r * num_puts ops ∧
        s1.recv.length = s.recv.length + r * num_gets ops := by
  induction ops with
  | nil =>
    intro s hF _ _
    exact ⟨s, rfl, hF, by simp [run_indices], by simp [num_puts], by simp [num_gets]⟩
  | cons o os ih =>
    intro s hF hsize hnb
    have hos : ∀ o1 ∈ os, o1.size = r := fun o1 h1 => hsize o1 (List.mem_cons_of_mem _ h1)
    have hsb : (RingBuffer.step s o).is_blocked = false := step_not_blocked_of_run s o os hnb
    have ho : o.size = r := hsize o (List.mem_cons_self _ _)
    have key : ∃ s2, RingBuffer.step s o = .returned s2 ∧ FInv C r s2 ∧
        (∀ i ∈ step_indices s.q o, i < C) ∧
        s2.sent.length = s.sent.length + r * num_puts [o] ∧
        s2.recv.length = s.recv.length + r * num_gets [o] := by
      cases o with
      | put src p n =>
        simp only [Op.size] at ho
        subst ho
        obtain ⟨s2, h1, h2, h3, h4, h5⟩ := finv_put hF hd hC src p hsb
        exact ⟨s2, h1, h2, h3, by simp [num_puts, Op.is_put, h4], by simp [num_gets, Op.is_put, h5]⟩
      | get dst p n =>
        simp only [Op.size] at ho
        subst ho
        obtain ⟨s2, h1, h2, h3, h4, h5⟩ := finv_get hF hd hC dst p hsb
        exact ⟨s2, h1, h2, h3, by simp [num_puts, Op.is_put, h4], by simp [num_gets, Op.is_put, h5]⟩
    obtain ⟨s2, h1, h2, h3, h4, h5⟩ := key
    have hnb2 : (RingBuffer.run s2 os).is_blocked = false := by
      simpa [RingBuffer.run, h1] using hnb
    obtain ⟨s3, k1, k2, k3, k4, k5⟩ := ih s2 h2 hos hnb2
    refine ⟨s3, by simp [RingBuffer.run, h1, k1], k2, ?_, ?_, ?_⟩
    · intro i hi
      simp only [run_indices, h1, List.mem_append] at hi
      rcases hi with hi | hi
      · exact h3 i hi
      · exact k3 i hi
    · rw [k4, h4]
      simp only [num_puts, List.countP_cons, List.countP_nil]
      ring
    · rw [k5, h5]
      simp only [num_gets, List.countP_cons, List.countP_nil]
      ring

theorem run_take_returned (ops : List Op) :
    ∀ (s s1 : Sys) (k : Nat), run s ops = .returned s1 →
      ∃ sk, run s (ops.take k) = .returned sk := by
  induction ops with
  | nil => intro s s1 k h; exact ⟨s, by simp [RingBuffer.run]⟩
  | cons o os ih =>
    intro s s1 k h
    cases k with
    | zero => exact ⟨s, by simp [RingBuffer.run]⟩
    | succ k =>
      cases hs : RingBuffer.step s o with
      | blocked => simp [RingBuffer.run, hs] at h
      | undefined => simp [RingBuffer.run, hs] at h
      | returned s2 =>
        simp only [RingBuffer.run, hs] at h
        obtain ⟨sk, hk⟩ := ih s2 s1 k h
        exact ⟨sk, by simp [RingBuffer.run, hs, hk]⟩

/-! ## First-in first-out delivery -/

/-- C1, as stated, fails on capacity 4 with all-zero initial memory.
(a) put 1 byte, get 2, put 2, get 1: the get of 2 bytes passes `tail - head == 0` with one
unread byte, and the bytes got are 1, 0, 3 for 1, 2, 3 put.
(b) put 3, get 2, put 1, put 3, get 2, get 3: the put of 3 bytes passes
`(tail + size) % size == head` with 2 free bytes and overwrites the unread byte 3.
(c) put 3, get 3, put 2: the put starts at offset 3 and its `memcpy` runs past offset 4. -/
theorem fifo_any_split_counterexample :
    (run (Sys.start ⟨mem_of [], 4, 0, 0⟩)
        [.put (mem_of [1]) 0 1, .get (mem_of []) 0 2,
         .put (mem_of [2, 3]) 0 2, .get (mem_of []) 0 1]).map Sys.view
      = .returned (3, 3, [1, 2, 3], [1, 0, 3]) ∧
    (run (Sys.start ⟨mem_of [], 4, 0, 0⟩)
        [.put (mem_of [1, 2, 3]) 0 3, .get (mem_of []) 0 2, .put (mem_of [4]) 0 1,
         .put (mem_of [5, 6, 7]) 0 3, .get (mem_of []) 0 2, .get (mem_of []) 0 3]).map Sys.view
      = .returned (3, 3, [1, 2, 3, 4, 5, 6, 7], [1, 2, 7, 4, 5, 6, 7]) ∧
    (run (Sys.start ⟨mem_of [], 4, 0, 0⟩)
        [.put (mem_of [1, 2, 3]) 0 3, .get (mem_of []) 0 3,
         .put (mem_of [4, 5]) 0 2]).map Sys.view
      = .undefined ∧
    ¬ fifo_any_split 4 := by
  refine ⟨by decide, by decide, by decide, ?_⟩
  intro h
  obtain ⟨s, hs, hfifo⟩ := h (mem_of []) 0 0 0 ⟨mem_of [], 4, 0, 0⟩ [] 
    [.put (mem_of [1]) 0 1, .get (mem_of []) 0 2,
      .put (mem_of [2, 3]) 0 2, .get (mem_of []) 0 1]
    rfl (by intro o ho; simp at ho; rcases ho with rfl | rfl | rfl | rfl <;> decide)
    (by decide)
  have hv : (run (Sys.start ⟨mem_of [], 4, 0, 0⟩)
        [.put (mem_of [1]) 0 1, .get (mem_of []) 0 2,
         .put (mem_of [2, 3]) 0 2, .get (mem_of []) 0 1]).map Sys.view
      = .returned (3, 3, [1, 2, 3], [1, 0, 3]) := by decide
  rw [hs] at hv
  simp only [call_result.map, Sys.view] at hv
  injection hv with hv
  simp only [Prod.mk.injEq] at hv
  obtain ⟨_, _, h3, h4⟩ := hv
  rw [h3, h4] at hfifo
  exact absurd (hfifo rfl) (by decide)

/-- C1, amended: on a queue fresh from `queue_init` with capacity `0 < C < 2 ^ 64`, for every
sequence of `queue_put` and `queue_get` calls in which no call is held in its wait loop
and every request fits (a put of `n` bytes finds `n ≤ C - used` and `tail + n ≤ C`, a get
of `m` bytes finds `m ≤ used` and `head + m ≤ C`), every call returns, the bytes got are,
in order, the first bytes put, and they are all the bytes put when the totals agree. -/
theorem fifo_of_fitting_requests (C : Nat) (mem : Nat → uint8_t) (rl rr rw : Int)
    (q : queue_t) (e : List diag) (ops : List Op)
    (hC0 : 0 < C) (hC : C < SIZE_MOD)
    (hq : queue_init (some mem) rl rr rw C = .ready q e)
    (hnb : (run (Sys.start q) ops).is_blocked = false)
    (hfit : run_fits (Sys.start q) ops = true) :
    ∃ s, run (Sys.start q) ops = .returned s ∧
      s.recv = s.sent.take s.recv.length ∧
      (s.sent.length = s.recv.length → s.recv = s.sent) := by
  have hq1 := queue_init_ready mem rl rr rw C q e hq
  have hI0 : Inv C (Sys.start q) := inv_start q C hC0 (by rw [hq1]) (by rw [hq1]) (by rw [hq1])
  obtain ⟨s, hs, hI⟩ := inv_run hC ops (Sys.start q) hI0 hnb hfit
  exact ⟨s, hs, hI.recv_eq, inv_recv_eq_sent hI⟩

/-- Instance of `fifo_of_fitting_requests`: capacity 8, puts of 3, 2 and 3 bytes, gets of 1,
4 and 3 bytes. -/
theorem fifo_of_fitting_requests_witness :
    (0 < 8 ∧ 8 < SIZE_MOD ∧
      queue_init (some (mem_of [])) 0 0 0 8 = .ready ⟨mem_of [], 8, 0, 0⟩ [] ∧
      (run (Sys.start ⟨mem_of [], 8, 0, 0⟩)
        [.put (mem_of [1, 2, 3]) 0 3, .get (mem_of []) 0 1, .put (mem_of [4, 5]) 0 2,
         .get (mem_of []) 1 4, .put (mem_of [6, 7, 8]) 0 3,
         .get (mem_of []) 5 3]).is_blocked = false ∧
      run_fits (Sys.start ⟨mem_of [], 8, 0, 0⟩)
        [.put (mem_of [1, 2, 3]) 0 3, .get (mem_of []) 0 1, .put (mem_of [4, 5]) 0 2,
         .get (mem_of []) 1 4, .put (mem_of [6, 7, 8]) 0 3,
         .get (mem_of []) 5 3] = true) ∧
    ∃ s, run (Sys.start ⟨mem_of [], 8, 0, 0⟩)
        [.put (mem_of [1, 2, 3]) 0 3, .get (mem_of []) 0 1, .put (mem_of [4, 5]) 0 2,
         .get (mem_of []) 1 4, .put (mem_of [6, 7, 8]) 0 3,
         .get (mem_of []) 5 3] = .returned s ∧
      s.recv = s.sent.take s.recv.length ∧
      (s.sent.length = s.recv.length → s.recv = s.sent) :=
  ⟨⟨by decide, by decide, rfl, by decide, by decide⟩,
    fifo_of_fitting_requests 8 (mem_of []) 0 0 0 ⟨mem_of [], 8, 0, 0⟩ [] _
      (by decide) (by decide) rfl (by decide) (by decide)⟩

/-- C2: for a capacity `C < 2 ^ 64` and a record size `r < C` dividing `C` (so `0 < r`), on a
queue fresh from `queue_init`, every sequence of `queue_put` and `queue_get` calls of `r`
bytes in which no call is held in its wait loop returns; every buffer offset its copies
reach is below `C`; after each prefix of the sequence every unread byte is still in the
buffer at its place; the bytes got are the first bytes put; and when the sequence has `N`
puts and `N` gets, the `N * r` bytes got are the bytes put, `head = tail` and `used = 0`. -/
theorem fixed_records_fifo (C r : Nat) (mem : Nat → uint8_t) (rl rr rw : Int)
    (q : queue_t) (e : List diag) (ops : List Op)
    (hrC : r < C) (hd : r ∣ C) (hC : C < SIZE_MOD)
    (hq : queue_init (some mem) rl rr rw C = .ready q e)
    (hsize : ∀ o ∈ ops, o.size = r)
    (hnb : (run (Sys.start q) ops).is_blocked = false) :
    ∃ s, run (Sys.start q) ops = .returned s ∧
      (∀ i ∈ run_indices (Sys.start q) ops, i < C) ∧
      (∀ k, ∃ sk, run (Sys.start q) (ops.take k) = .returned sk ∧ holds_unread sk) ∧
      s.recv = s.sent.take s.recv.length ∧
      (∀ N, num_puts ops = N → num_gets ops = N →
        s.sent.length = N * r ∧ s.recv = s.sent ∧ s.q.head = s.q.tail ∧ s.used = 0) := by
  have hq1 := queue_init_ready mem rl rr rw C q e hq
  have hF0 : FInv C r (Sys.start q) :=
    finv_start q C r (by omega) (by rw [hq1]) (by rw [hq1]) (by rw [hq1])
  obtain ⟨s, hs, hF, hidx, hsl, hrl⟩ := finv_run hd hC ops (Sys.start q) hF0 hsize hnb
  refine ⟨s, hs, hidx, ?_, hF.inv.recv_eq, ?_⟩
  · intro k
    obtain ⟨sk, hk⟩ := run_take_returned ops (Sys.start q) s k hs
    have hnbk : (run (Sys.start q) (ops.take k)).is_blocked = false := by
      rw [hk]; rfl
    obtain ⟨sk1, hk1, hFk, _⟩ := finv_run hd hC (ops.take k) (Sys.start q) hF0
      (fun o ho => hsize o (List.mem_of_mem_take ho)) hnbk
    rw [hk] at hk1
    injection hk1 with hk1
    exact ⟨sk, hk, by rw [hk1]; exact inv_holds_unread hFk.inv⟩
  · intro N hp hg
    rw [hp] at hsl
    rw [hg] at hrl
    simp only [Sys.start, List.length_nil, Nat.zero_add] at hsl hrl
    have hlen : s.sent.length = s.recv.length := by rw [hsl, hrl]
    refine ⟨by rw [hsl, Nat.mul_comm], inv_recv_eq_sent hF.inv hlen, ?_, ?_⟩
    · have ht := hF.inv.tail_eq
      rw [hlen, Nat.sub_self, Nat.add_zero, Nat.mod_eq_of_lt hF.inv.head_lt] at ht
      exact ht.symm
    · simp only [Sys.used, hlen, sub_self]

/-- Instance of `fixed_records_fifo` on the parameters of `test.c`: capacity 4096, records of
8 bytes read from `in`, three puts and three gets. -/
theorem fixed_records_fifo_witness :
    (8 < 4096 ∧ 8 ∣ 4096 ∧ 4096 < SIZE_MOD ∧
      queue_init (some (mem_of [])) 0 0 0 4096 = .ready bench_queue [] ∧
      (∀ o ∈ bench_ops, o.size = 8) ∧
      (run (Sys.start bench_queue) bench_ops).is_blocked = false) ∧
    ∃ s, run (Sys.start bench_queue) bench_ops = .returned s ∧
      (∀ i ∈ run_indices (Sys.start bench_queue) bench_ops, i < 4096) ∧
      (∀ k, ∃ sk, run (Sys.start bench_queue) (bench_ops.take k) = .returned sk ∧
        holds_unread sk) ∧
      s.recv = s.sent.take s.recv.length ∧
      (∀ N, num_puts bench_ops = N → num_gets bench_ops = N →
        s.sent.length = N * 8 ∧ s.recv = s.sent ∧ s.q.head = s.q.tail ∧ s.used = 0) :=
  ⟨⟨by decide, by decide, by decide, rfl,
      by intro o ho; simp [bench_ops] at ho; rcases ho with rfl | rfl | rfl | rfl | rfl | rfl <;> rfl,
      by decide⟩,
    fixed_records_fifo 4096 8 (mem_of []) 0 0 0 bench_queue [] bench_ops
      (by decide) (by decide) (by decide) rfl
      (by intro o ho; simp [bench_ops] at ho; rcases ho with rfl | rfl | rfl | rfl | rfl | rfl <;> rfl)
      (by decide)⟩

/-! ## Round trip on an empty queue -/

/-- C3, as stated, fails on capacity 8: on the fresh queue a `queue_put` of 8 bytes and a
`queue_put` of 0 bytes both stay in the wait loop, as `(0 + 8) % 8 == 0` and
`(0 + 0) % 8 == 0`; on the empty queue with `head = tail = 6` a `queue_put` of 4 bytes
leaves the wait loop and copies to offsets 6 to 9. -/
theorem round_trip_any_size_counterexample :
    (queue_put ⟨mem_of [], 8, 0, 0⟩ (mem_of [1, 2, 3, 4, 5, 6, 7, 8]) 0 8).is_blocked = true ∧
    (queue_put ⟨mem_of [], 8, 0, 0⟩ (mem_of []) 0 0).is_blocked = true ∧
    (queue_put ⟨mem_of [], 8, 6, 6⟩ (mem_of [1, 2, 3, 4]) 0 4).is_undefined = true ∧
    ¬ round_trip_any_size 8 := by
  refine ⟨by decide, by decide, by decide, ?_⟩
  intro h
  obtain ⟨q1, q2, dst1, h1, _⟩ := h ⟨mem_of [], 8, 0, 0⟩ (mem_of [1, 2, 3, 4, 5, 6, 7, 8])
    (mem_of []) 0 0 8 rfl rfl (by decide) (by decide)
  have hb : (queue_put ⟨mem_of [], 8, 0, 0⟩ (mem_of [1, 2, 3, 4, 5, 6, 7, 8]) 0 8).is_blocked
      = true := by decide
  rw [h1] at hb
  exact Bool.noConfusion hb

/-- C3, amended: for a capacity `C < 2 ^ 64`, every empty queue state (`head = tail`) and every
`k` with `0 < k < C` and `head + k ≤ C`, `queue_put` of `k` bytes returns, the following
`queue_get` of `k` bytes returns the count `k` and copies out exactly the `k` bytes that
were put, and afterwards `head = tail` again, so that `queue_get` waits. -/
theorem round_trip_on_empty (C : Nat) (q : queue_t) (src dst : Nat → uint8_t) (p pd k : Nat)
    (hC : C < SIZE_MOD) (hs : q.size = C) (he : q.head = q.tail)
    (hk0 : 0 < k) (hkC : k < C) (hb : q.head + k ≤ C) :
    ∃ q1 q2 dst1, queue_put q src p k = .returned (q1, p + k) ∧
      queue_get q1 dst pd k = .returned (q2, dst1, pd + k, k) ∧
      bytes dst1 pd k = bytes src p k ∧ q2.head = q2.tail ∧ get_waits q2 = true := by
  have h0 : q.size ≠ 0 := by omega
  have hadd : add_sz q.tail k = q.tail + k := add_sz_of_lt _ _ (by omega)
  have hadd2 : add_sz q.head k = q.head + k := add_sz_of_lt _ _ (by omega)
  have hne : (q.tail + k) % C ≠ q.head := by
    rcases mod_lt_two (q.tail + k) C (by omega) with ⟨h1, h2⟩ | ⟨h1, h2⟩ <;> rw [h2] <;> omega
  have hlt : (q.tail + k) % C < C := Nat.mod_lt _ (by omega)
  have hw : put_waits q k = false := by
    simp only [put_waits, hadd, hs, decide_eq_false_iff_not]
    exact hne
  have hput := queue_put_of q src p k h0 hw (by omega)
  have hw2 : get_waits { q with
      buffer := memcpy q.buffer q.tail src p k
      tail := add_sz q.tail k % q.size } = false := by
    simp only [get_waits, hadd, hs, decide_eq_false_iff_not]
    rw [sub_sz_eq_zero_iff _ _ (by omega) (by omega)]
    exact hne
  have hget := queue_get_of { q with
      buffer := memcpy q.buffer q.tail src p k
      tail := add_sz q.tail k % q.size } dst pd k h0 hw2 (by show q.head + k ≤ q.size; omega)
  refine ⟨_, _, _, hput, hget, ?_, ?_, ?_⟩
  · show bytes (memcpy dst pd (memcpy q.buffer q.tail src p k) q.head k) pd k = bytes src p k
    rw [bytes_memcpy, he, bytes_memcpy]
  · show add_sz q.head k % q.size = add_sz q.tail k % q.size
    rw [he]
  · show get_waits ⟨_, q.size, add_sz q.head k % q.size, add_sz q.tail k % q.size⟩ = true
    simp only [get_waits, decide_eq_true_eq, hs, hadd, hadd2]
    rw [sub_sz_eq_zero_iff _ _ (by omega) (by rw [he]; omega), he]

/-- Instance of `round_trip_on_empty`: capacity 16, `head = tail = 5`, 7 bytes. -/
theorem round_trip_on_empty_witness :
    (16 < SIZE_MOD ∧ (⟨mem_of [], 16, 5, 5⟩ : queue_t).size = 16 ∧
      (⟨mem_of [], 16, 5, 5⟩ : queue_t).head = (⟨mem_of [], 16, 5, 5⟩ : queue_t).tail ∧
      0 < 7 ∧ 7 < 16 ∧ (⟨mem_of [], 16, 5, 5⟩ : queue_t).head + 7 ≤ 16) ∧
    ∃ q1 q2 dst1,
      queue_put ⟨mem_of [], 16, 5, 5⟩ (mem_of [1, 2, 3, 4, 5, 6, 7]) 0 7 = .returned (q1, 0 + 7) ∧
      queue_get q1 (mem_of []) 0 7 = .returned (q2, dst1, 0 + 7, 7) ∧
      bytes dst1 0 7 = bytes (mem_of [1, 2, 3, 4, 5, 6, 7]) 0 7 ∧ q2.head = q2.tail ∧
      get_waits q2 = true :=
  ⟨⟨by decide, rfl, rfl, by decide, by decide, by decide⟩,
    round_trip_on_empty 16 ⟨mem_of [], 16, 5, 5⟩ (mem_of [1, 2, 3, 4, 5, 6, 7]) (mem_of []) 0 0 7
      (by decide) rfl rfl (by decide) (by decide) (by decide)⟩

/-! ## Copies that cross the end of the buffer -/

/-- C4, the code at the failing input: capacity 16, a put of 12 bytes, a get of 12 bytes, then
a put of 10 bytes at `tail = 12`.  The three copies reach offsets 0 to 11, 0 to 11 and
12 to 21 of the 16-byte buffer, so not every offset is below 16. -/
theorem put_copy_runs_past_end :
    (run (Sys.start ⟨mem_of [], 16, 0, 0⟩)
        [.put (mem_of [1, 2, 3, 4, 5, 6, 7, 8, 9, 10, 11, 12]) 0 12,
         .get (mem_of []) 0 12]).map Sys.cursors = .returned (16, 12, 12) ∧
    run_indices (Sys.start ⟨mem_of [], 16, 0, 0⟩)
        [.put (mem_of [1, 2, 3, 4, 5, 6, 7, 8, 9, 10, 11, 12]) 0 12,
         .get (mem_of []) 0 12,
         .put (mem_of [13, 14, 15, 16, 17, 18, 19, 20, 21, 22]) 0 10]
      = List.range' 0 12 ++ List.range' 0 12 ++ [12, 13, 14, 15, 16, 17, 18, 19, 20, 21] ∧
    ¬ (∀ i ∈ run_indices (Sys.start ⟨mem_of [], 16, 0, 0⟩)
        [.put (mem_of [1, 2, 3, 4, 5, 6, 7, 8, 9, 10, 11, 12]) 0 12,
         .get (mem_of []) 0 12,
         .put (mem_of [13, 14, 15, 16, 17, 18, 19, 20, 21, 22]) 0 10], i < 16) := by
  refine ⟨by decide, by decide, ?_⟩
  intro h
  exact absurd (h 16 (by decide)) (by decide)

/-- C9, the code at the failing input: on the empty queue of capacity 16 with
`head = tail = 12`, a put of 10 bytes is not held in the wait loop and makes one copy that
starts at offset 12 and runs over offsets 12 to 21; the call does not return with bytes 4
to 9 stored at offsets 0 to 5. -/
theorem put_does_not_wrap_its_copy :
    put_waits ⟨mem_of [], 16, 12, 12⟩ 10 = false ∧
    queue_put_indices ⟨mem_of [], 16, 12, 12⟩ 10 = [12, 13, 14, 15, 16, 17, 18, 19, 20, 21] ∧
    (queue_put ⟨mem_of [], 16, 12, 12⟩
        (mem_of [13, 14, 15, 16, 17, 18, 19, 20, 21, 22]) 0 10).is_undefined = true ∧
    (queue_put ⟨mem_of [], 16, 12, 12⟩
        (mem_of [13, 14, 15, 16, 17, 18, 19, 20, 21, 22]) 0 10).is_returned = false := by
  decide

/-- C10, the code at the failing input: capacity 16, puts of 12, 4 and 6 bytes around a get of
12 bytes leave `head = 12`, `tail = 6` and 10 unread bytes; the get of 10 bytes is not held
in the wait loop and makes one copy that reads offsets 12 to 21; the call does not return
the bytes at offsets 12 to 15 and 0 to 5. -/
theorem get_does_not_wrap_its_copy :
    (run (Sys.start ⟨mem_of [], 16, 0, 0⟩)
        [.put (mem_of [1, 2, 3, 4, 5, 6, 7, 8, 9, 10, 11, 12]) 0 12, .get (mem_of []) 0 12,
         .put (mem_of [13, 14, 15, 16]) 0 4,
         .put (mem_of [17, 18, 19, 20, 21, 22]) 0 6]).map Sys.view
      = .returned (12, 6, [1, 2, 3, 4, 5, 6, 7, 8, 9, 10, 11, 12, 13, 14, 15, 16, 17, 18, 19,
          20, 21, 22], [1, 2, 3, 4, 5, 6, 7, 8, 9, 10, 11, 12]) ∧
    get_waits ⟨mem_of [], 16, 12, 6⟩ = false ∧
    queue_get_indices ⟨mem_of [], 16, 12, 6⟩ 10 = [12, 13, 14, 15, 16, 17, 18, 19, 20, 21] ∧
    (run (Sys.start ⟨mem_of [], 16, 0, 0⟩)
        [.put (mem_of [1, 2, 3, 4, 5, 6, 7, 8, 9, 10, 11, 12]) 0 12, .get (mem_of []) 0 12,
         .put (mem_of [13, 14, 15, 16]) 0 4,
         .put (mem_of [17, 18, 19, 20, 21, 22]) 0 6,
         .get (mem_of []) 12 10]).map Sys.view = .undefined := by
  decide

/-! ## What the wait loops enforce -/

theorem finv_of_run (C r : Nat) (mem : Nat → uint8_t) (rl rr rw : Int)
    (q : queue_t) (e : List diag) (ops : List Op) (s : Sys)
    (hrC : r < C) (hd : r ∣ C) (hC : C < SIZE_MOD)
    (hq : queue_init (some mem) rl rr rw C = .ready q e)
    (hsize : ∀ o ∈ ops, o.size = r)
    (hrun : run (Sys.start q) ops = .returned s) : FInv C r s := by
  have hq1 := queue_init_ready mem rl rr rw C q e hq
  have hF0 : FInv C r (Sys.start q) :=
    finv_start q C r (by omega) (by rw [hq1]) (by rw [hq1]) (by rw [hq1])
  obtain ⟨s1, hs1, hF, _⟩ := finv_run hd hC ops (Sys.start q) hF0 hsize (by rw [hrun]; rfl)
  rw [hrun] at hs1
  injection hs1 with hs1
  rw [hs1]; exact hF

theorem put_waits_of_full {C : Nat} {s : Sys} (hI : Inv C s) (hC : C < SIZE_MOD) (n : Nat)
    (hfull : s.sent.length - s.recv.length + n = C) (hb : s.q.tail + n ≤ C) :
    put_waits s.q n = true := by
  have hh := hI.head_lt
  have hu := hI.used_lt
  have ht := hI.tail_eq
  have hadd : add_sz s.q.tail n = s.q.tail + n := add_sz_of_lt _ _ (by omega)
  simp only [put_waits, hadd, hI.size_eq, decide_eq_true_eq]
  rcases mod_lt_two (s.q.head + (s.sent.length - s.recv.length)) C (by omega) with
    ⟨h1, h2⟩ | ⟨h1, h2⟩ <;> rw [← ht] at h2
  · have : s.q.tail + n = C := by omega
    rw [this, Nat.mod_self]; omega
  · have : s.q.tail + n = s.q.head := by omega
    rw [this]; exact Nat.mod_eq_of_lt hh

/-- C5, as stated, fails on capacity 4: after a put of 3 bytes, a get of 2 and a put of 1
the queue holds 2 unread bytes (`head = 2`, `tail = 0`), and a put of 3 bytes leaves its
wait loop, as `(0 + 3) % 4` is not 2, and returns, with 2 free bytes. -/
theorem put_needs_space_counterexample :
    (run (Sys.start ⟨mem_of [], 4, 0, 0⟩)
        [.put (mem_of [1, 2, 3]) 0 3, .get (mem_of []) 0 2,
         .put (mem_of [4]) 0 1]).map Sys.view = .returned (2, 0, [1, 2, 3, 4], [1, 2]) ∧
    put_waits ⟨mem_of [], 4, 2, 0⟩ 3 = false ∧
    (run (Sys.start ⟨mem_of [], 4, 0, 0⟩)
        [.put (mem_of [1, 2, 3]) 0 3, .get (mem_of []) 0 2,
         .put (mem_of [4]) 0 1, .put (mem_of [5, 6, 7]) 0 3]).is_returned = true ∧
    ¬ put_needs_space 4 := by
  refine ⟨by decide, by decide, by decide, ?_⟩
  intro h
  have := h (mem_of []) 0 0 0 ⟨mem_of [], 4, 0, 0⟩ []
    [.put (mem_of [1, 2, 3]) 0 3, .get (mem_of []) 0 2, .put (mem_of [4]) 0 1]
    (state_after (Sys.start ⟨mem_of [], 4, 0, 0⟩)
      [.put (mem_of [1, 2, 3]) 0 3, .get (mem_of []) 0 2, .put (mem_of [4]) 0 1]) 3 rfl
    (by intro o ho; simp at ho; rcases ho with rfl | rfl | rfl <;> decide) rfl
    (by decide) (by decide)
  exact absurd this (by decide)

/-- C5, amended: for a capacity `C < 2 ^ 64` and a record size `r < C` dividing `C`, in every
state reached from `queue_init` by returned `queue_put` and `queue_get` calls of `r` bytes,
a `queue_put` of `r` bytes leaves its wait loop only if `C - used ≥ r`, and indeed only if
`C - used ≥ 2 * r`: one record slot stays free. -/
theorem put_leaves_loop_with_space (C r : Nat) (mem : Nat → uint8_t) (rl rr rw : Int)
    (q : queue_t) (e : List diag) (ops : List Op) (s : Sys)
    (hrC : r < C) (hd : r ∣ C) (hC : C < SIZE_MOD)
    (hq : queue_init (some mem) rl rr rw C = .ready q e)
    (hsize : ∀ o ∈ ops, o.size = r)
    (hrun : run (Sys.start q) ops = .returned s)
    (hw : put_waits s.q r = false) :
    (r : Int) ≤ (C : Int) - s.used ∧ 2 * (r : Int) ≤ (C : Int) - s.used := by
  have hF := finv_of_run C r mem rl rr rw q e ops s hrC hd hC hq hsize hrun
  have hI := hF.inv
  have hle := hI.le
  have hb : s.q.tail + r ≤ C := dvd_add_le_of_lt r _ _ (finv_tail_dvd hF hd) hd (inv_tail_lt hI)
  have h1 : s.sent.length - s.recv.length + r ≤ C :=
    dvd_add_le_of_lt r _ _ hF.used_dvd hd hI.used_lt
  have hne : s.sent.length - s.recv.length + r ≠ C := by
    intro hfull
    rw [put_waits_of_full hI hC r hfull hb] at hw
    exact Bool.noConfusion hw
  have h2 : s.sent.length - s.recv.length + r + r ≤ C :=
    dvd_add_le_of_lt r _ _ (Nat.dvd_add hF.used_dvd (Nat.dvd_refl r)) hd (by omega)
  simp only [Sys.used]
  omega

/-- Instance of `put_leaves_loop_with_space`: capacity 8, records of 2 bytes, after two puts
and one get. -/
theorem put_leaves_loop_with_space_witness :
    (2 < 8 ∧ 2 ∣ 8 ∧ 8 < SIZE_MOD ∧
      queue_init (some (mem_of [])) 0 0 0 8 = .ready ⟨mem_of [], 8, 0, 0⟩ [] ∧
      (∀ o ∈ two_in_one_out, o.size = 2) ∧
      run (Sys.start ⟨mem_of [], 8, 0, 0⟩) two_in_one_out
        = .returned (state_after (Sys.start ⟨mem_of [], 8, 0, 0⟩) two_in_one_out) ∧
      put_waits (state_after (Sys.start ⟨mem_of [], 8, 0, 0⟩) two_in_one_out).q 2 = false) ∧
    ((2 : Nat) : Int) ≤ ((8 : Nat) : Int) -
        (state_after (Sys.start ⟨mem_of [], 8, 0, 0⟩) two_in_one_out).used ∧
      2 * ((2 : Nat) : Int) ≤ ((8 : Nat) : Int) -
        (state_after (Sys.start ⟨mem_of [], 8, 0, 0⟩) two_in_one_out).used :=
  ⟨⟨by decide, by decide, by decide, rfl,
      by intro o ho; simp [two_in_one_out] at ho; rcases ho with rfl | rfl | rfl <;> rfl,
      rfl, by decide⟩,
    put_leaves_loop_with_space 8 2 (mem_of []) 0 0 0 ⟨mem_of [], 8, 0, 0⟩ [] two_in_one_out
      (state_after (Sys.start ⟨mem_of [], 8, 0, 0⟩) two_in_one_out)
      (by decide) (by decide) (by decide) rfl
      (by intro o ho; simp [two_in_one_out] at ho; rcases ho with rfl | rfl | rfl <;> rfl)
      rfl (by decide)⟩

/-- C6, as stated, fails on capacity 4: after a put of 1 byte a get of 2 bytes leaves its wait
loop, as `tail - head` is 1, and returns the byte put followed by a byte of the buffer that
no put wrote. -/
theorem get_needs_data_counterexample :
    (run (Sys.start ⟨mem_of [], 4, 0, 0⟩) [.put (mem_of [1]) 0 1]).map Sys.view
      = .returned (0, 1, [1], []) ∧
    get_waits ⟨mem_of [], 4, 0, 1⟩ = false ∧
    (run (Sys.start ⟨mem_of [], 4, 0, 0⟩)
        [.put (mem_of [1]) 0 1, .get (mem_of []) 0 2]).map Sys.view
      = .returned (2, 1, [1], [1, 0]) ∧
    ¬ get_needs_data 4 := by
  refine ⟨by decide, by decide, by decide, ?_⟩
  intro h
  have := h (mem_of []) 0 0 0 ⟨mem_of [], 4, 0, 0⟩ [] [.put (mem_of [1]) 0 1]
    (state_after (Sys.start ⟨mem_of [], 4, 0, 0⟩) [.put (mem_of [1]) 0 1]) 2 rfl
    (by intro o ho; simp at ho; rcases ho with rfl; decide) rfl
    (by decide) (by decide)
  exact absurd this (by decide)

/-- C6, amended: for a capacity `C < 2 ^ 64` and a record size `r < C` dividing `C`, in every
state reached from `queue_init` by returned `queue_put` and `queue_get` calls of `r` bytes,
a `queue_get` of `r` bytes leaves its wait loop only if `used ≥ r`; it then returns, and the
bytes got so far are the first bytes put, so it copies out no byte that was not put. -/
theorem get_leaves_loop_with_data (C r : Nat) (mem : Nat → uint8_t) (rl rr rw : Int)
    (q : queue_t) (e : List diag) (ops : List Op) (s : Sys) (dst : Nat → uint8_t) (pd : Nat)
    (hrC : r < C) (hd : r ∣ C) (hC : C < SIZE_MOD)
    (hq : queue_init (some mem) rl rr rw C = .ready q e)
    (hsize : ∀ o ∈ ops, o.size = r)
    (hrun : run (Sys.start q) ops = .returned s)
    (hw : get_waits s.q = false) :
    (r : Int) ≤ s.used ∧
      ∃ s1, step s (.get dst pd r) = .returned s1 ∧ s1.recv = s1.sent.take s1.recv.length := by
  have hF := finv_of_run C r mem rl rr rw q e ops s hrC hd hC hq hsize hrun
  have hI := hF.inv
  have hle := hI.le
  have hh := hI.head_lt
  have hsz := hI.size_eq
  have hne : s.sent.length ≠ s.recv.length := by
    intro he
    rw [(get_waits_iff hI hC).mpr he] at hw
    exact Bool.noConfusion hw
  have hfit : r ≤ s.sent.length - s.recv.length := Nat.le_of_dvd (by omega) hF.used_dvd
  have hb : s.q.head + r ≤ C := dvd_add_le_of_lt r _ _ hF.head_dvd hd hh
  have hstep := step_get_of s dst pd r (by omega) hw (by omega)
  refine ⟨?_, _, hstep, (inv_get hI hC dst pd r hfit hstep).recv_eq⟩
  simp only [Sys.used]
  omega

/-- Instance of `get_leaves_loop_with_data`: capacity 8, records of 2 bytes, after two puts
and one get. -/
theorem get_leaves_loop_with_data_witness :
    (2 < 8 ∧ 2 ∣ 8 ∧ 8 < SIZE_MOD ∧
      queue_init (some (mem_of [])) 0 0 0 8 = .ready ⟨mem_of [], 8, 0, 0⟩ [] ∧
      (∀ o ∈ two_in_one_out, o.size = 2) ∧
      run (Sys.start ⟨mem_of [], 8, 0, 0⟩) two_in_one_out
        = .returned (state_after (Sys.start ⟨mem_of [], 8, 0, 0⟩) two_in_one_out) ∧
      get_waits (state_after (Sys.start ⟨mem_of [], 8, 0, 0⟩) two_in_one_out).q = false) ∧
    ((2 : Nat) : Int) ≤ (state_after (Sys.start ⟨mem_of [], 8, 0, 0⟩) two_in_one_out).used ∧
      ∃ s1, step (state_after (Sys.start ⟨mem_of [], 8, 0, 0⟩) two_in_one_out)
          (.get (mem_of []) 2 2) = .returned s1 ∧
        s1.recv = s1.sent.take s1.recv.length :=
  ⟨⟨by decide, by decide, by decide, rfl,
      by intro o ho; simp [two_in_one_out] at ho; rcases ho with rfl | rfl | rfl <;> rfl,
      rfl, by decide⟩,
    get_leaves_loop_with_data 8 2 (mem_of []) 0 0 0 ⟨mem_of [], 8, 0, 0⟩ [] two_in_one_out
      (state_after (Sys.start ⟨mem_of [], 8, 0, 0⟩) two_in_one_out) (mem_of []) 2
      (by decide) (by decide) (by decide) rfl
      (by intro o ho; simp [two_in_one_out] at ho; rcases ho with rfl | rfl | rfl <;> rfl)
      rfl (by decide)⟩

/-! ## Occupancy -/

/-- C7, as stated, fails on capacity 4: after a put of 1 byte and a get of 2 the occupancy
is -1; after a put of 3, a get of 2, a put of 1 and a put of 3 it is 5. -/
theorem occupancy_in_range_counterexample :
    (run (Sys.start ⟨mem_of [], 4, 0, 0⟩)
        [.put (mem_of [1]) 0 1, .get (mem_of []) 0 2]).map Sys.used = .returned (-1) ∧
    (run (Sys.start ⟨mem_of [], 4, 0, 0⟩)
        [.put (mem_of [1, 2, 3]) 0 3, .get (mem_of []) 0 2,
         .put (mem_of [4]) 0 1, .put (mem_of [5, 6, 7]) 0 3]).map Sys.used = .returned 5 ∧
    ¬ occupancy_in_range 4 := by
  refine ⟨by decide, by decide, ?_⟩
  intro h
  have := h (mem_of []) 0 0 0 ⟨mem_of [], 4, 0, 0⟩ []
    [.put (mem_of [1]) 0 1, .get (mem_of []) 0 2]
    (state_after (Sys.start ⟨mem_of [], 4, 0, 0⟩)
      [.put (mem_of [1]) 0 1, .get (mem_of []) 0 2]) rfl
    (by intro o ho; simp at ho; rcases ho with rfl | rfl <;> decide) rfl
  exact absurd this.1 (by decide)

/-- C7, amended: for a capacity `C < 2 ^ 64` and a record size `r < C` dividing `C`, in every
state reached from `queue_init` by returned `queue_put` and `queue_get` calls of `r`
bytes, `0 ≤ used ≤ C`, and indeed `used ≤ C - r`. -/
theorem occupancy_of_fixed_records (C r : Nat) (mem : Nat → uint8_t) (rl rr rw : Int)
    (q : queue_t) (e : List diag) (ops : List Op) (s : Sys)
    (hrC : r < C) (hd : r ∣ C) (hC : C < SIZE_MOD)
    (hq : queue_init (some mem) rl rr rw C = .ready q e)
    (hsize : ∀ o ∈ ops, o.size = r)
    (hrun : run (Sys.start q) ops = .returned s) :
    0 ≤ s.used ∧ s.used ≤ (C : Int) ∧ s.used ≤ (C : Int) - (r : Int) := by
  have hF := finv_of_run C r mem rl rr rw q e ops s hrC hd hC hq hsize hrun
  have hle := hF.inv.le
  have h1 : s.sent.length - s.recv.length + r ≤ C :=
    dvd_add_le_of_lt r _ _ hF.used_dvd hd hF.inv.used_lt
  simp only [Sys.used]
  omega

/-- Instance of `occupancy_of_fixed_records`: capacity 8, records of 2 bytes, after two puts
and one get. -/
theorem occupancy_of_fixed_records_witness :
    (2 < 8 ∧ 2 ∣ 8 ∧ 8 < SIZE_MOD ∧
      queue_init (some (mem_of [])) 0 0 0 8 = .ready ⟨mem_of [], 8, 0, 0⟩ [] ∧
      (∀ o ∈ two_in_one_out, o.size = 2) ∧
      run (Sys.start ⟨mem_of [], 8, 0, 0⟩) two_in_one_out
        = .returned (state_after (Sys.start ⟨mem_of [], 8, 0, 0⟩) two_in_one_out)) ∧
    0 ≤ (state_after (Sys.start ⟨mem_of [], 8, 0, 0⟩) two_in_one_out).used ∧
      (state_after (Sys.start ⟨mem_of [], 8, 0, 0⟩) two_in_one_out).used ≤ ((8 : Nat) : Int) ∧
      (state_after (Sys.start ⟨mem_of [], 8, 0, 0⟩) two_in_one_out).used
        ≤ ((8 : Nat) : Int) - ((2 : Nat) : Int) :=
  ⟨⟨by decide, by decide, by decide, rfl,
      by intro o ho; simp [two_in_one_out] at ho; rcases ho with rfl | rfl | rfl <;> rfl,
      rfl⟩,
    occupancy_of_fixed_records 8 2 (mem_of []) 0 0 0 ⟨mem_of [], 8, 0, 0⟩ [] two_in_one_out
      (state_after (Sys.start ⟨mem_of [], 8, 0, 0⟩) two_in_one_out)
      (by decide) (by decide) (by decide) rfl
      (by intro o ho; simp [two_in_one_out] at ho; rcases ho with rfl | rfl | rfl <;> rfl)
      rfl⟩

/-! ## The blocking scenario on capacity 8 -/

theorem step_recv_le (s s1 : Sys) (o : Op) (h : step s o = .returned s1) :
    s.recv.length ≤ s1.recv.length := by
  cases o with
  | put src p n =>
    obtain ⟨_, _, _, rfl⟩ := step_put_returned s src p n s1 h
    exact Nat.le_refl _
  | get dst p n =>
    obtain ⟨_, _, _, rfl⟩ := step_get_returned s dst p n s1 h
    show s.recv.length ≤ (s.recv ++ bytes s.q.buffer s.q.head n).length
    rw [List.length_append]; omega

theorem run_recv_le (ops : List Op) :
    ∀ (s s1 : Sys), run s ops = .returned s1 → s.recv.length ≤ s1.recv.length := by
  induction ops with
  | nil =>
    intro s s1 h
    simp only [RingBuffer.run] at h
    injection h with h
    rw [h]
  | cons o os ih =>
    intro s s1 h
    cases hs : RingBuffer.step s o with
    | blocked => simp [RingBuffer.run, hs] at h
    | undefined => simp [RingBuffer.run, hs] at h
    | returned s2 =>
      simp only [RingBuffer.run, hs] at h
      exact Nat.le_trans (step_recv_le s s2 o hs) (ih s2 s1 h)

theorem gets_of_nothing_keep_queue (gets : List Op) :
    ∀ (s s1 : Sys), (∀ o ∈ gets, o.is_put = false) → run s gets = .returned s1 →
      s1.recv.length = s.recv.length → s.q.head < s.q.size → s.q.size < SIZE_MOD →
      s1.q = s.q := by
  induction gets with
  | nil =>
    intro s s1 _ h _ _ _
    simp only [RingBuffer.run] at h
    injection h with h
    rw [h]
  | cons o os ih =>
    intro s s1 hg h hlen hh hsz
    cases hs : RingBuffer.step s o with
    | blocked => simp [RingBuffer.run, hs] at h
    | undefined => simp [RingBuffer.run, hs] at h
    | returned s2 =>
      simp only [RingBuffer.run, hs] at h
      have hmono := run_recv_le os s2 s1 h
      cases o with
      | put src p n =>
        have := hg (.put src p n) (List.mem_cons_self _ _)
        simp [Op.is_put] at this
      | get dst p n =>
        obtain ⟨_, _, _, h2⟩ := step_get_returned s dst p n s2 hs
        have hl2 : s2.recv.length = s.recv.length + n := by
          rw [h2]
          show (s.recv ++ bytes s.q.buffer s.q.head n).length = s.recv.length + n
          rw [List.length_append, bytes_length]
        have hn : n = 0 := by omega
        have hq2 : s2.q = s.q := by
          rw [h2, hn]
          show ({ s.q with head := add_sz s.q.head 0 % s.q.size } : queue_t) = s.q
          rw [add_sz_of_lt _ _ (by omega), Nat.add_zero, Nat.mod_eq_of_lt hh]
        have := ih s2 s1 (fun o1 h1 => hg o1 (List.mem_cons_of_mem _ h1)) h (by omega)
          (by rw [hq2]; exact hh) (by rw [hq2]; exact hsz)
        rw [this, hq2]

/-- C8, as stated, fails: on the queue fresh from `queue_init` with capacity 8 a `queue_put`
of 8 bytes is held in its wait loop, as `(0 + 8) % 8 == 0`, and never completes. -/
theorem put_of_whole_capacity_counterexample :
    queue_init (some (mem_of [])) 0 0 0 8 = .ready ⟨mem_of [], 8, 0, 0⟩ [] ∧
    put_waits ⟨mem_of [], 8, 0, 0⟩ 8 = true ∧
    (queue_put ⟨mem_of [], 8, 0, 0⟩ (mem_of [1, 2, 3, 4, 5, 6, 7, 8]) 0 8).is_blocked = true ∧
    (queue_put ⟨mem_of [], 8, 0, 0⟩ (mem_of [1, 2, 3, 4, 5, 6, 7, 8]) 0 8).is_returned
      = false :=
  ⟨rfl, by decide, by decide, by decide⟩

/-- C8, amended: on a queue fresh from `queue_init` with capacity 8, a `queue_put` of 8 bytes
is held in its wait loop; a `queue_put` of 7 bytes returns, and in the resulting state a
`queue_put` of 1 byte is held in its wait loop and stays held as long as the `queue_get`
calls made since have consumed no byte; once a `queue_get` has consumed `m` bytes,
`1 ≤ m ≤ 7`, the `queue_put` of 1 byte returns. -/
theorem second_put_blocks_until_get (mem : Nat → uint8_t) (rl rr rw : Int) (q : queue_t)
    (e : List diag) (src : Nat → uint8_t) (p : Nat)
    (hq : queue_init (some mem) rl rr rw 8 = .ready q e) :
    (queue_put q src p 8).is_blocked = true ∧
    ∃ q1, queue_put q src p 7 = .returned (q1, p + 7) ∧
      (∀ src1 p1, (queue_put q1 src1 p1 1).is_blocked = true) ∧
      (∀ (gets : List Op) (s : Sys), (∀ o ∈ gets, o.is_put = false) →
        run ⟨q1, bytes src p 7, []⟩ gets = .returned s → s.recv.length = 0 →
        ∀ src1 p1, (queue_put s.q src1 p1 1).is_blocked = true) ∧
      (∀ dst pd m, 1 ≤ m → m ≤ 7 →
        ∃ q2 dst1, queue_get q1 dst pd m = .returned (q2, dst1, pd + m, m) ∧
          ∀ src1 p1, (queue_put q2 src1 p1 1).is_returned = true) := by
  have hq1 := queue_init_ready mem rl rr rw 8 q e hq
  subst hq1
  have hblk : ∀ (b : Nat → uint8_t) (src1 : Nat → uint8_t) (p1 : Nat),
      (queue_put ⟨b, 8, 0, 7⟩ src1 p1 1).is_blocked = true := by
    intro b src1 p1
    simp [queue_put, put_waits, add_sz, SIZE_MOD, call_result.is_blocked]
  refine ⟨by simp [queue_put, put_waits, add_sz, SIZE_MOD, call_result.is_blocked],
    ⟨memcpy mem 0 src p 7, 8, 0, 7⟩, ?_, hblk _, ?_, ?_⟩
  · simp [queue_put, put_waits, add_sz, SIZE_MOD]
  · intro gets s hg hrun hlen src1 p1
    have hkeep := gets_of_nothing_keep_queue gets ⟨⟨memcpy mem 0 src p 7, 8, 0, 7⟩,
      bytes src p 7, []⟩ s hg hrun (by simpa using hlen) (by show 0 < 8; decide)
      (by show 8 < SIZE_MOD; decide)
    rw [hkeep]
    exact hblk _ src1 p1
  · intro dst pd m hm1 hm7
    have hadd : add_sz 0 m = m := by
      have := add_sz_of_lt 0 m (by simp only [SIZE_MOD]; omega)
      simpa using this
    have hmod : m % 8 = m := Nat.mod_eq_of_lt (by omega)
    have hget := queue_get_of ⟨memcpy mem 0 src p 7, 8, 0, 7⟩ dst pd m
      (by show (8 : Nat) ≠ 0; decide) (by simp [get_waits, sub_sz, SIZE_MOD])
      (by show 0 + m ≤ 8; omega)
    refine ⟨_, _, hget, ?_⟩
    intro src1 p1
    have hw : put_waits ⟨memcpy mem 0 src p 7, 8, add_sz 0 m % 8, 7⟩ 1 = false := by
      simp only [put_waits, hadd, hmod, decide_eq_false_iff_not]
      have : add_sz 7 1 % 8 = 0 := by decide
      rw [this]; omega
    have hput := queue_put_of ⟨memcpy mem 0 src p 7, 8, add_sz 0 m % 8, 7⟩ src1 p1 1
      (by show (8 : Nat) ≠ 0; decide) hw (by show 7 + 1 ≤ 8; decide)
    show (queue_put ⟨memcpy mem 0 src p 7, 8, add_sz 0 m % 8, 7⟩ src1 p1 1).is_returned = true
    rw [hput]; rfl

/-- Instance of `second_put_blocks_until_get` on cleared memory. -/
theorem second_put_blocks_until_get_witness :
    queue_init (some (mem_of [])) 0 0 0 8 = .ready ⟨mem_of [], 8, 0, 0⟩ [] ∧
    ((queue_put ⟨mem_of [], 8, 0, 0⟩ (mem_of [1, 2, 3, 4, 5, 6, 7, 8]) 0 8).is_blocked = true ∧
    ∃ q1, queue_put ⟨mem_of [], 8, 0, 0⟩ (mem_of [1, 2, 3, 4, 5, 6, 7, 8]) 0 7
        = .returned (q1, 0 + 7) ∧
      (∀ src1 p1, (queue_put q1 src1 p1 1).is_blocked = true) ∧
      (∀ (gets : List Op) (s : Sys), (∀ o ∈ gets, o.is_put = false) →
        run ⟨q1, bytes (mem_of [1, 2, 3, 4, 5, 6, 7, 8]) 0 7, []⟩ gets = .returned s →
        s.recv.length = 0 →
        ∀ src1 p1, (queue_put s.q src1 p1 1).is_blocked = true) ∧
      (∀ dst pd m, 1 ≤ m → m ≤ 7 →
        ∃ q2 dst1, queue_get q1 dst pd m = .returned (q2, dst1, pd + m, m) ∧
          ∀ src1 p1, (queue_put q2 src1 p1 1).is_returned = true)) :=
  ⟨rfl, second_put_blocks_until_get (mem_of []) 0 0 0 ⟨mem_of [], 8, 0, 0⟩ []
    (mem_of [1, 2, 3, 4, 5, 6, 7, 8]) 0 rfl⟩

/-! ## The cursors modulo the capacity -/

theorem cinv_start (q : queue_t) (C : Nat) (hC : 0 < C) (hs : q.size = C) (hh : q.head = 0)
    (ht : q.tail = 0) : CInv C (Sys.start q) where
  size_eq := hs
  head_lt := by show q.head < C; rw [hh]; exact hC
  tail_lt := by show q.tail < C; rw [ht]; exact hC
  congr := by
    show (C : Int) ∣ (q.tail : Int) - (q.head : Int) - (Sys.start q).used
    simp [Sys.start, Sys.used, hh, ht]

theorem cinv_step {C : Nat} {s s1 : Sys} (hI : CInv C s) (hC : C < SIZE_MOD) (o : Op)
    (h : step s o = .returned s1) : CInv C s1 := by
  have hsz := hI.size_eq
  have hh := hI.head_lt
  have ht := hI.tail_lt
  have hc := hI.congr
  cases o with
  | put src p n =>
    obtain ⟨h0, _, hb, rfl⟩ := step_put_returned s src p n s1 h
    rw [hsz] at hb
    have hadd : add_sz s.q.tail n = s.q.tail + n := add_sz_of_lt _ _ (by omega)
    refine ⟨hsz, hh, ?_, ?_⟩
    · show add_sz s.q.tail n % s.q.size < C
      rw [hsz]; exact Nat.mod_lt _ (by omega)
    · show (C : Int) ∣ ((add_sz s.q.tail n % s.q.size : Nat) : Int) - (s.q.head : Int)
        - (((s.sent ++ bytes src p n).length : Int) - (s.recv.length : Int))
      rw [hsz, hadd, List.length_append, bytes_length]
      simp only [Sys.used] at hc
      rcases mod_lt_two (s.q.tail + n) C (by omega) with ⟨h1, h2⟩ | ⟨h1, h2⟩
      · rw [h2]
        have e : (((s.q.tail + n : Nat) : Int) - (s.q.head : Int)
            - (((s.sent.length + n : Nat) : Int) - (s.recv.length : Int)))
            = (s.q.tail : Int) - (s.q.head : Int)
              - ((s.sent.length : Int) - (s.recv.length : Int)) := by
          push_cast; ring
        rw [e]; exact hc
      · rw [h2]
        have e : (((s.q.tail + n - C : Nat) : Int) - (s.q.head : Int)
            - (((s.sent.length + n : Nat) : Int) - (s.recv.length : Int)))
            = ((s.q.tail : Int) - (s.q.head : Int)
              - ((s.sent.length : Int) - (s.recv.length : Int))) - (C : Int) := by
          rw [Nat.cast_sub h1]; push_cast; ring
        rw [e]; exact Dvd.dvd.sub hc (dvd_refl _)
  | get dst p n =>
    obtain ⟨h0, _, hb, rfl⟩ := step_get_returned s dst p n s1 h
    rw [hsz] at hb
    have hadd : add_sz s.q.head n = s.q.head + n := add_sz_of_lt _ _ (by omega)
    refine ⟨hsz, ?_, ht, ?_⟩
    · show add_sz s.q.head n % s.q.size < C
      rw [hsz]; exact Nat.mod_lt _ (by omega)
    · show (C : Int) ∣ (s.q.tail : Int) - ((add_sz s.q.head n % s.q.size : Nat) : Int)
        - ((s.sent.length : Int) - ((s.recv ++ bytes s.q.buffer s.q.head n).length : Int))
      rw [hsz, hadd, List.length_append, bytes_length]
      simp only [Sys.used] at hc
      rcases mod_lt_two (s.q.head + n) C (by omega) with ⟨h1, h2⟩ | ⟨h1, h2⟩
      · rw [h2]
        have e : ((s.q.tail : Int) - ((s.q.head + n : Nat) : Int)
            - ((s.sent.length : Int) - ((s.recv.length + n : Nat) : Int)))
            = (s.q.tail : Int) - (s.q.head : Int)
              - ((s.sent.length : Int) - (s.recv.length : Int)) := by
          push_cast; ring
        rw [e]; exact hc
      · rw [h2]
        have e : ((s.q.tail : Int) - ((s.q.head + n - C : Nat) : Int)
            - ((s.sent.length : Int) - ((s.recv.length + n : Nat) : Int)))
            = ((s.q.tail : Int) - (s.q.head : Int)
              - ((s.sent.length : Int) - (s.recv.length : Int))) + (C : Int) := by
          rw [Nat.cast_sub h1]; push_cast; ring
        rw [e]; exact Dvd.dvd.add hc (dvd_refl _)

theorem cinv_run {C : Nat} (hC : C < SIZE_MOD) (ops : List Op) :
    ∀ (s s1 : Sys), CInv C s → run s ops = .returned s1 → CInv C s1 := by
  induction ops with
  | nil =>
    intro s s1 hI h
    simp only [RingBuffer.run] at h
    injection h with h
    rw [← h]; exact hI
  | cons o os ih =>
    intro s s1 hI h
    cases hs : RingBuffer.step s o with
    | blocked => simp [RingBuffer.run, hs] at h
    | undefined => simp [RingBuffer.run, hs] at h
    | returned s2 =>
      simp only [RingBuffer.run, hs] at h
      exact ih s2 s1 (cinv_step hI hC o hs) h

/-- C11, as stated, fails on the fresh queue of capacity 8 (`used = 0`): a `queue_put` of 8
bytes has 8 free bytes and waits, as `(0 + 8) % 8 == 0`; a `queue_put` of 0 bytes waits as
well. -/
theorem put_proceeds_with_room_counterexample :
    put_waits ⟨mem_of [], 8, 0, 0⟩ 8 = true ∧
    put_waits ⟨mem_of [], 8, 0, 0⟩ 0 = true ∧
    (Sys.start ⟨mem_of [], 8, 0, 0⟩).used = 0 ∧
    ¬ put_proceeds_with_room 8 := by
  refine ⟨by decide, by decide, by decide, ?_⟩
  intro h
  have := h (mem_of []) 0 0 0 ⟨mem_of [], 8, 0, 0⟩ [] [] (Sys.start ⟨mem_of [], 8, 0, 0⟩) 8
    rfl rfl (by decide) (by decide)
  exact absurd this (by decide)

/-- C11, amended: with `used` the bytes put minus the bytes got since `queue_init`, for a
capacity `0 < C ≤ 2 ^ 63`, in every state reached from `queue_init` by returned calls and for
every `n ≤ C` with `0 < used + n < C`, the wait condition of `queue_put` of `n` bytes is
false; in particular a put of `0 < n < C` bytes on an empty queue proceeds. -/
theorem put_proceeds_below_capacity (C : Nat) (mem : Nat → uint8_t) (rl rr rw : Int)
    (q : queue_t) (e : List diag) (ops : List Op) (s : Sys) (n : Nat)
    (hC0 : 0 < C) (hC : 2 * C ≤ SIZE_MOD)
    (hq : queue_init (some mem) rl rr rw C = .ready q e)
    (hrun : run (Sys.start q) ops = .returned s)
    (hn : n ≤ C) (hlo : 0 < s.used + (n : Int)) (hhi : s.used + (n : Int) < (C : Int)) :
    put_waits s.q n = false := by
  have hq1 := queue_init_ready mem rl rr rw C q e hq
  have hI0 : CInv C (Sys.start q) :=
    cinv_start q C hC0 (by rw [hq1]) (by rw [hq1]) (by rw [hq1])
  have hI := cinv_run (by omega) ops (Sys.start q) s hI0 hrun
  have hh := hI.head_lt
  have ht := hI.tail_lt
  have hc := hI.congr
  have hadd : add_sz s.q.tail n = s.q.tail + n := add_sz_of_lt _ _ (by omega)
  simp only [put_waits, hadd, hI.size_eq, decide_eq_false_iff_not]
  intro heq
  have hd : (C : Int) ∣ s.used + (n : Int) := by
    rcases mod_lt_two (s.q.tail + n) C (by omega) with ⟨h1, h2⟩ | ⟨h1, h2⟩
    · rw [h2] at heq
      have e : s.used + (n : Int)
          = -((s.q.tail : Int) - (s.q.head : Int) - s.used) := by
        have : ((s.q.tail + n : Nat) : Int) = (s.q.head : Int) := by rw [heq]
        push_cast at this
        linarith
      rw [e]; exact (dvd_neg).mpr hc
    · rw [h2] at heq
      have e : s.used + (n : Int)
          = (C : Int) - ((s.q.tail : Int) - (s.q.head : Int) - s.used) := by
        have : ((s.q.tail + n - C : Nat) : Int) = (s.q.head : Int) := by rw [heq]
        rw [Nat.cast_sub h1] at this
        push_cast at this
        linarith
      rw [e]; exact Dvd.dvd.sub (dvd_refl _) hc
  have := Int.le_of_dvd hlo hd
  omega

/-- Instance of `put_proceeds_below_capacity`: capacity 8, after puts of 3 and 2 bytes and a
get of 4, a put of 3 bytes. -/
theorem put_proceeds_below_capacity_witness :
    (0 < 8 ∧ 2 * 8 ≤ SIZE_MOD ∧
      queue_init (some (mem_of [])) 0 0 0 8 = .ready ⟨mem_of [], 8, 0, 0⟩ [] ∧
      run (Sys.start ⟨mem_of [], 8, 0, 0⟩) mixed_ops
        = .returned (state_after (Sys.start ⟨mem_of [], 8, 0, 0⟩) mixed_ops) ∧
      3 ≤ 8 ∧
      0 < (state_after (Sys.start ⟨mem_of [], 8, 0, 0⟩) mixed_ops).used + ((3 : Nat) : Int) ∧
      (state_after (Sys.start ⟨mem_of [], 8, 0, 0⟩) mixed_ops).used + ((3 : Nat) : Int)
        < ((8 : Nat) : Int)) ∧
    put_waits (state_after (Sys.start ⟨mem_of [], 8, 0, 0⟩) mixed_ops).q 3 = false :=
  ⟨⟨by decide, by decide, rfl, rfl, by decide, by decide, by decide⟩,
    put_proceeds_below_capacity 8 (mem_of []) 0 0 0 ⟨mem_of [], 8, 0, 0⟩ [] mixed_ops
      (state_after (Sys.start ⟨mem_of [], 8, 0, 0⟩) mixed_ops) 3
      (by decide) (by decide) rfl rfl (by decide) (by decide) (by decide)⟩

/-! ## Effects of one call -/

/-- C12: for every capacity `C > 0`, `queue_init` leaves `head < C` and `tail < C`, every
`queue_put` and every `queue_get` that returns, whatever its size argument, keeps the
capacity and leaves `head < C` and `tail < C`; the value lines 85 to 87 and 110 to 112
leave in a cursor, `(cursor + size) % C` computed in `size_t`, is always below `C`. -/
theorem cursors_stay_in_range (C : Nat) (hC : 0 < C) :
    (∀ (mem : Nat → uint8_t) (rl rr rw : Int) (q : queue_t) (e : List diag),
      queue_init (some mem) rl rr rw C = .ready q e →
      q.size = C ∧ q.head < C ∧ q.tail < C) ∧
    (∀ (q : queue_t) (src : Nat → uint8_t) (p n : Nat) (q1 : queue_t) (p1 : Nat),
      q.size = C → q.head < C → q.tail < C →
      queue_put q src p n = .returned (q1, p1) →
      q1.size = C ∧ q1.head < C ∧ q1.tail < C) ∧
    (∀ (q : queue_t) (dst : Nat → uint8_t) (p n : Nat) (q1 : queue_t)
      (dst1 : Nat → uint8_t) (p1 r : Nat),
      q.size = C → q.head < C → q.tail < C →
      queue_get q dst p n = .returned (q1, dst1, p1, r) →
      q1.size = C ∧ q1.head < C ∧ q1.tail < C) ∧
    (∀ cursor n : Nat, add_sz cursor n % C < C) := by
  refine ⟨?_, ?_, ?_, fun _ _ => Nat.mod_lt _ hC⟩
  · intro mem rl rr rw q e hq
    rw [queue_init_ready mem rl rr rw C q e hq]
    exact ⟨rfl, hC, hC⟩
  · intro q src p n q1 p1 hs hh ht h
    obtain ⟨_, _, _, hr⟩ := queue_put_returned q src p n (q1, p1) h
    injection hr with hr1 _
    rw [hr1]
    refine ⟨hs, hh, ?_⟩
    show add_sz q.tail n % q.size < C
    rw [hs]; exact Nat.mod_lt _ hC
  · intro q dst p n q1 dst1 p1 r hs hh ht h
    obtain ⟨_, _, _, hr⟩ := queue_get_returned q dst p n (q1, dst1, p1, r) h
    injection hr with hr1 _
    rw [hr1]
    refine ⟨hs, ?_, ht⟩
    show add_sz q.head n % q.size < C
    rw [hs]; exact Nat.mod_lt _ hC

/-- Instance of `cursors_stay_in_range` at capacity 8. -/
theorem cursors_stay_in_range_witness :
    0 < 8 ∧
    ((∀ (mem : Nat → uint8_t) (rl rr rw : Int) (q : queue_t) (e : List diag),
      queue_init (some mem) rl rr rw 8 = .ready q e →
      q.size = 8 ∧ q.head < 8 ∧ q.tail < 8) ∧
    (∀ (q : queue_t) (src : Nat → uint8_t) (p n : Nat) (q1 : queue_t) (p1 : Nat),
      q.size = 8 → q.head < 8 → q.tail < 8 →
      queue_put q src p n = .returned (q1, p1) →
      q1.size = 8 ∧ q1.head < 8 ∧ q1.tail < 8) ∧
    (∀ (q : queue_t) (dst : Nat → uint8_t) (p n : Nat) (q1 : queue_t)
      (dst1 : Nat → uint8_t) (p1 r : Nat),
      q.size = 8 → q.head < 8 → q.tail < 8 →
      queue_get q dst p n = .returned (q1, dst1, p1, r) →
      q1.size = 8 ∧ q1.head < 8 ∧ q1.tail < 8) ∧
    (∀ cursor n : Nat, add_sz cursor n % 8 < 8)) :=
  ⟨by decide, cursors_stay_in_range 8 (by decide)⟩

/-- C13: every `queue_get` of `n` bytes that returns, on a queue whose capacity is a `size_t`
value, returns exactly `n`, sets `head` to `(head + n) mod C`, advances the caller's
destination cursor by exactly `n`, leaves `tail`, the capacity and every buffer byte
unchanged, and has stored at the old cursor the `n` buffer bytes from `head` on. -/
theorem get_effect (q : queue_t) (dst : Nat → uint8_t) (p n : Nat) (q1 : queue_t)
    (dst1 : Nat → uint8_t) (p1 r : Nat) (hsz : q.size < SIZE_MOD)
    (h : queue_get q dst p n = .returned (q1, dst1, p1, r)) :
    r = n ∧ q1.head = (q.head + n) % q.size ∧ p1 = p + n ∧
      q1.tail = q.tail ∧ q1.size = q.size ∧ q1.buffer = q.buffer ∧
      bytes dst1 p n = bytes q.buffer q.head n := by
  obtain ⟨_, _, hb, hr⟩ := queue_get_returned q dst p n (q1, dst1, p1, r) h
  have hadd : add_sz q.head n = q.head + n := add_sz_of_lt _ _ (by omega)
  simp only [Prod.mk.injEq] at hr
  obtain ⟨h1, h2, h3, h4⟩ := hr
  rw [h1, h2, h3, h4]
  exact ⟨rfl, by show add_sz q.head n % q.size = _; rw [hadd], rfl, rfl, rfl, rfl,
    bytes_memcpy _ _ _ _ _⟩

/-- Instance of `get_effect`: capacity 8, `head = 1`, `tail = 5`, a get of 3 bytes. -/
theorem get_effect_witness :
    ((⟨mem_of [9, 1, 2, 3, 4], 8, 1, 5⟩ : queue_t).size < SIZE_MOD ∧
      queue_get ⟨mem_of [9, 1, 2, 3, 4], 8, 1, 5⟩ (mem_of []) 0 3
        = .returned (⟨mem_of [9, 1, 2, 3, 4], 8, 4, 5⟩,
            memcpy (mem_of []) 0 (mem_of [9, 1, 2, 3, 4]) 1 3, 3, 3)) ∧
    (3 = 3 ∧ (⟨mem_of [9, 1, 2, 3, 4], 8, 4, 5⟩ : queue_t).head
        = ((⟨mem_of [9, 1, 2, 3, 4], 8, 1, 5⟩ : queue_t).head + 3)
          % (⟨mem_of [9, 1, 2, 3, 4], 8, 1, 5⟩ : queue_t).size ∧
      3 = 0 + 3 ∧
      (⟨mem_of [9, 1, 2, 3, 4], 8, 4, 5⟩ : queue_t).tail
        = (⟨mem_of [9, 1, 2, 3, 4], 8, 1, 5⟩ : queue_t).tail ∧
      (⟨mem_of [9, 1, 2, 3, 4], 8, 4, 5⟩ : queue_t).size
        = (⟨mem_of [9, 1, 2, 3, 4], 8, 1, 5⟩ : queue_t).size ∧
      (⟨mem_of [9, 1, 2, 3, 4], 8, 4, 5⟩ : queue_t).buffer
        = (⟨mem_of [9, 1, 2, 3, 4], 8, 1, 5⟩ : queue_t).buffer ∧
      bytes (memcpy (mem_of []) 0 (mem_of [9, 1, 2, 3, 4]) 1 3) 0 3
        = bytes (⟨mem_of [9, 1, 2, 3, 4], 8, 1, 5⟩ : queue_t).buffer
            (⟨mem_of [9, 1, 2, 3, 4], 8, 1, 5⟩ : queue_t).head 3) :=
  ⟨⟨by decide, rfl⟩,
    get_effect ⟨mem_of [9, 1, 2, 3, 4], 8, 1, 5⟩ (mem_of []) 0 3 _ _ _ _ (by decide) rfl⟩

theorem bytes_append (m : Nat → uint8_t) (p a b : Nat) :
    bytes m p a ++ bytes m (p + a) b = bytes m p (a + b) := by
  apply List.ext_getElem?
  intro k
  by_cases hk : k < a
  · rw [List.getElem?_append_left (by rw [bytes_length]; exact hk),
      bytes_getElem? m p a k hk, bytes_getElem? m p (a + b) k (by omega)]
  · by_cases hk2 : k < a + b
    · rw [List.getElem?_append_right (by rw [bytes_length]; omega), bytes_length,
        bytes_getElem? m (p + a) b (k - a) (by omega),
        bytes_getElem? m p (a + b) k hk2]
      congr 2; omega
    · have h1 : (bytes m p a ++ bytes m (p + a) b)[k]? = none :=
        List.getElem?_eq_none (by rw [List.length_append, bytes_length, bytes_length]; omega)
      have h2 : (bytes m p (a + b))[k]? = none :=
        List.getElem?_eq_none (by rw [bytes_length]; omega)
      rw [h1, h2]

theorem loops_run_publisher (inp : Nat → uint8_t) (n : Nat) (sched : List Bool) :
    ∀ (l l1 : Loops), loops_run inp n l sched = .returned l1 →
      l.publisher_ptr = l.sent_count * n → l.supplied = bytes inp 0 (l.sent_count * n) →
      l1.publisher_ptr = l1.sent_count * n ∧
        l1.supplied = bytes inp 0 (l1.sent_count * n) ∧
        l1.sent_count = l.sent_count + sched.count true := by
  induction sched with
  | nil =>
    intro l l1 h hp hs
    simp only [loops_run] at h
    injection h with h
    subst h
    exact ⟨hp, hs, by simp⟩
  | cons b bs ih =>
    intro l l1 h hp hs
    cases b with
    | true =>
      cases hq : queue_put l.q inp l.publisher_ptr n with
      | blocked => simp [loops_run, publisher_turn, hq] at h
      | undefined => simp [loops_run, publisher_turn, hq] at h
      | returned r =>
        obtain ⟨_, _, _, hr⟩ := queue_put_returned l.q inp l.publisher_ptr n r hq
        subst hr
        simp only [loops_run, publisher_turn, hq, if_true] at h
        obtain ⟨k1, k2, k3⟩ := ih _ l1 h
          (by show l.publisher_ptr + n = (l.sent_count + 1) * n; rw [hp]; ring)
          (by
            show l.supplied ++ bytes inp l.publisher_ptr n
              = bytes inp 0 ((l.sent_count + 1) * n)
            rw [hs, hp]
            have e : (l.sent_count + 1) * n = l.sent_count * n + n := by ring
            rw [e, ← bytes_append inp 0 (l.sent_count * n) n, Nat.zero_add])
        refine ⟨k1, k2, ?_⟩
        rw [k3]
        show l.sent_count + 1 + List.count true bs = l.sent_count + (true :: bs).count true
        rw [List.count_cons_self]; omega
    | false =>
      cases hq : queue_get l.q l.out l.consumer_ptr n with
      | blocked => simp [loops_run, consumer_turn, hq] at h
      | undefined => simp [loops_run, consumer_turn, hq] at h
      | returned r =>
        obtain ⟨q1, out1, p1, r1⟩ := r
        simp only [loops_run, consumer_turn, hq] at h
        obtain ⟨k1, k2, k3⟩ := ih _ l1 h hp hs
        refine ⟨k1, k2, ?_⟩
        rw [k3]
        show l.sent_count + List.count true bs = l.sent_count + (false :: bs).count true
        rw [List.count_cons_of_ne (by decide)]

/-- C14: every `queue_put` of `n` bytes that returns, on a queue whose capacity is a `size_t`
value, sets `tail` to `(tail + n) mod C`, advances the caller's source cursor by exactly
`n` and leaves `head` and the capacity unchanged; and in the two loops of `test.c` run
with records of `n` bytes, after any interleaving in which `k` puts (and any gets) returned,
`*publisher_ptr` is `k * n` and the bytes handed to the puts are, in order, the source
bytes `[0, k * n)`. -/
theorem put_effect (q : queue_t) (src : Nat → uint8_t) (p n : Nat) (q1 : queue_t) (p1 : Nat)
    (hsz : q.size < SIZE_MOD)
    (h : queue_put q src p n = .returned (q1, p1)) :
    (q1.tail = (q.tail + n) % q.size ∧ p1 = p + n ∧ q1.head = q.head ∧ q1.size = q.size) ∧
    (∀ (q0 : queue_t) (out : Nat → uint8_t) (sched : List Bool) (l1 : Loops),
      loops_run src n (Loops.start q0 out) sched = .returned l1 →
      l1.sent_count = sched.count true ∧
        l1.publisher_ptr = sched.count true * n ∧
        l1.supplied = bytes src 0 (sched.count true * n)) := by
  constructor
  · obtain ⟨_, _, hb, hr⟩ := queue_put_returned q src p n (q1, p1) h
    have hadd : add_sz q.tail n = q.tail + n := add_sz_of_lt _ _ (by omega)
    simp only [Prod.mk.injEq] at hr
    obtain ⟨h1, h2⟩ := hr
    rw [h1, h2]
    exact ⟨by show add_sz q.tail n % q.size = _; rw [hadd], rfl, rfl, rfl⟩
  · intro q0 out sched l1 hrun
    obtain ⟨k1, k2, k3⟩ := loops_run_publisher src n sched (Loops.start q0 out) l1 hrun
      (by simp [Loops.start]) (by simp [Loops.start, bytes])
    have hc : l1.sent_count = sched.count true := by
      rw [k3]; simp [Loops.start]
    rw [hc] at k1 k2
    exact ⟨hc, k1, k2⟩

/-- Instance of `put_effect`: capacity 8, `head = 1`, `tail = 5`, a put of 3 bytes; and the
loops of `test.c` on the fresh queue of capacity 8 with records of 3 bytes, scheduled put,
get, put: all three calls return, `*publisher_ptr` is 6 and the bytes handed to the two
puts are the source bytes 0 to 5. -/
theorem put_effect_witness :
    ((⟨mem_of [], 8, 1, 5⟩ : queue_t).size < SIZE_MOD ∧
      queue_put ⟨mem_of [], 8, 1, 5⟩ (mem_of [1, 2, 3, 4, 5, 6]) 0 3
        = .returned (⟨memcpy (mem_of []) 5 (mem_of [1, 2, 3, 4, 5, 6]) 0 3, 8, 1, 0⟩, 3) ∧
      loops_run (mem_of [1, 2, 3, 4, 5, 6]) 3 (Loops.start ⟨mem_of [], 8, 0, 0⟩ (mem_of []))
          [true, false, true]
        = .returned (loops_after (mem_of [1, 2, 3, 4, 5, 6]) 3
            (Loops.start ⟨mem_of [], 8, 0, 0⟩ (mem_of [])) [true, false, true])) ∧
    ((⟨memcpy (mem_of []) 5 (mem_of [1, 2, 3, 4, 5, 6]) 0 3, 8, 1, 0⟩ : queue_t).tail
        = ((⟨mem_of [], 8, 1, 5⟩ : queue_t).tail + 3) % (⟨mem_of [], 8, 1, 5⟩ : queue_t).size ∧
      3 = 0 + 3 ∧
      (⟨memcpy (mem_of []) 5 (mem_of [1, 2, 3, 4, 5, 6]) 0 3, 8, 1, 0⟩ : queue_t).head
        = (⟨mem_of [], 8, 1, 5⟩ : queue_t).head ∧
      (⟨memcpy (mem_of []) 5 (mem_of [1, 2, 3, 4, 5, 6]) 0 3, 8, 1, 0⟩ : queue_t).size
        = (⟨mem_of [], 8, 1, 5⟩ : queue_t).size) ∧
    ((loops_after (mem_of [1, 2, 3, 4, 5, 6]) 3
          (Loops.start ⟨mem_of [], 8, 0, 0⟩ (mem_of [])) [true, false, true]).sent_count
        = [true, false, true].count true ∧
      (loops_after (mem_of [1, 2, 3, 4, 5, 6]) 3
          (Loops.start ⟨mem_of [], 8, 0, 0⟩ (mem_of [])) [true, false, true]).publisher_ptr
        = [true, false, true].count true * 3 ∧
      (loops_after (mem_of [1, 2, 3, 4, 5, 6]) 3
          (Loops.start ⟨mem_of [], 8, 0, 0⟩ (mem_of [])) [true, false, true]).supplied
        = bytes (mem_of [1, 2, 3, 4, 5, 6]) 0 ([true, false, true].count true * 3)) ∧
    ((loops_after (mem_of [1, 2, 3, 4, 5, 6]) 3
          (Loops.start ⟨mem_of [], 8, 0, 0⟩ (mem_of [])) [true, false, true]).sent_count = 2 ∧
      (loops_after (mem_of [1, 2, 3, 4, 5, 6]) 3
          (Loops.start ⟨mem_of [], 8, 0, 0⟩ (mem_of [])) [true, false, true]).publisher_ptr
        = 6 ∧
      (loops_after (mem_of [1, 2, 3, 4, 5, 6]) 3
          (Loops.start ⟨mem_of [], 8, 0, 0⟩ (mem_of [])) [true, false, true]).supplied
        = [1, 2, 3, 4, 5, 6] ∧
      (loops_after (mem_of [1, 2, 3, 4, 5, 6]) 3
          (Loops.start ⟨mem_of [], 8, 0, 0⟩ (mem_of [])) [true, false, true]).q.tail = 6 ∧
      (loops_after (mem_of [1, 2, 3, 4, 5, 6]) 3
          (Loops.start ⟨mem_of [], 8, 0, 0⟩ (mem_of [])) [true, false, true]).q.head = 3 ∧
      (loops_after (mem_of [1, 2, 3, 4, 5, 6]) 3
          (Loops.start ⟨mem_of [], 8, 0, 0⟩ (mem_of [])) [true, false, true]).got_count = 1 ∧
      (loops_after (mem_of [1, 2, 3, 4, 5, 6]) 3
          (Loops.start ⟨mem_of [], 8, 0, 0⟩ (mem_of [])) [true, false, true]).consumer_ptr
        = 3 ∧
      bytes (loops_after (mem_of [1, 2, 3, 4, 5, 6]) 3
          (Loops.start ⟨mem_of [], 8, 0, 0⟩ (mem_of [])) [true, false, true]).out 0 3
        = [1, 2, 3]) :=
  ⟨⟨by decide, rfl, rfl⟩,
    (put_effect ⟨mem_of [], 8, 1, 5⟩ (mem_of [1, 2, 3, 4, 5, 6]) 0 3 _ _ (by decide) rfl).1,
    (put_effect ⟨mem_of [], 8, 1, 5⟩ (mem_of [1, 2, 3, 4, 5, 6]) 0 3 _ _ (by decide) rfl).2
      ⟨mem_of [], 8, 0, 0⟩ (mem_of []) [true, false, true] _ rfl,
    by decide⟩

/-! ## Construction -/

/-- C15: whenever the allocation succeeds, `queue_init(q, s)` returns with `size = s`,
`head = tail = 0`, the allocated memory as buffer, no unread byte (`used = 0`, and
`queue_get` waits); the buffer has `s` bytes: on the fresh queue a put of `0 < n < s` bytes
returns and no put of more than `s` bytes does. -/
theorem init_gives_empty_queue (mem : Nat → uint8_t) (rl rr rw : Int) (s : Nat) :
    ∃ q e, queue_init (some mem) rl rr rw s = .ready q e ∧
      q.size = s ∧ q.head = 0 ∧ q.tail = 0 ∧ q.buffer = mem ∧
      (Sys.start q).used = 0 ∧ get_waits q = true ∧
      (∀ (src : Nat → uint8_t) (p n : Nat), 0 < n → n < s → s < SIZE_MOD →
        (queue_put q src p n).is_returned = true) ∧
      (∀ (src : Nat → uint8_t) (p n : Nat), s < n →
        (queue_put q src p n).is_returned = false) := by
  refine ⟨⟨mem, s, 0, 0⟩, _, rfl, rfl, rfl, rfl, rfl, by simp [Sys.start, Sys.used],
    by simp [get_waits, sub_sz, SIZE_MOD], ?_, ?_⟩
  · intro src p n hn0 hns hs
    have hadd : add_sz 0 n = n := by
      have := add_sz_of_lt 0 n (by omega)
      simpa using this
    have hw : put_waits ⟨mem, s, 0, 0⟩ n = false := by
      simp only [put_waits, hadd, decide_eq_false_iff_not, Nat.mod_eq_of_lt hns]
      omega
    rw [queue_put_of ⟨mem, s, 0, 0⟩ src p n (by show s ≠ 0; omega) hw
      (by show 0 + n ≤ s; omega)]
    rfl
  · intro src p n hsn
    cases hq : queue_put ⟨mem, s, 0, 0⟩ src p n with
    | blocked => rfl
    | undefined => rfl
    | returned r =>
      obtain ⟨_, _, hb, _⟩ := queue_put_returned ⟨mem, s, 0, 0⟩ src p n r hq
      have hb2 : 0 + n ≤ s := hb
      omega

/-- C16, as stated, fails: with the allocation successful and `pthread_mutex_init`
returning 12, `queue_init` prints a message and returns the queue; it does not abort. -/
theorem abort_on_any_failure_counterexample :
    (queue_init (some (mem_of [])) 12 0 0 8).is_aborted = false ∧
    (queue_init (some (mem_of [])) 0 0 12 8).is_aborted = false ∧
    ¬ abort_on_any_failure := by
  refine ⟨by decide, by decide, ?_⟩
  intro h
  have := (h (some (mem_of [])) 12 0 0 8).mpr (Or.inr (Or.inl (by decide)))
  exact absurd this (by decide)

/-- C16, amended: with the outcomes of the allocation and of the three initialisations as
inputs, `queue_init` ends the process if and only if the allocation fails, after printing
the allocation message; when the allocation succeeds it returns the queue of the requested
size with `head = tail = 0` whatever the three return codes are, and what it prints is one
message for each initialisation that failed, in the order mutex, `readable`, `writeable`:
nothing exactly when all three succeeded. -/
theorem abort_iff_no_memory (m : Option (Nat → uint8_t)) (rl rr rw : Int) (s : Nat) :
    ((queue_init m rl rr rw s).is_aborted = true ↔ m = none) ∧
    (m = none → queue_init m rl rr rw s = .aborted [diag.no_memory]) ∧
    (∀ mem, m = some mem →
      ∃ e, queue_init m rl rr rw s = .ready ⟨mem, s, 0, 0⟩ e ∧
        (e = [] ↔ rl = 0 ∧ rr = 0 ∧ rw = 0) ∧
        e = ([(rl, diag.no_mutex), (rr, diag.no_cond), (rw, diag.no_cond)].filter
              (fun x => decide (x.1 ≠ 0))).map Prod.snd ∧
        e.length = (if rl = 0 then 0 else 1) + (if rr = 0 then 0 else 1)
          + (if rw = 0 then 0 else 1) ∧
        e.count diag.no_mutex = (if rl = 0 then 0 else 1) ∧
        e.count diag.no_cond = (if rr = 0 then 0 else 1) + (if rw = 0 then 0 else 1) ∧
        e.count diag.no_memory = 0) := by
  refine ⟨?_, ?_, ?_⟩
  · cases m with
    | none => simp [queue_init, init_result.is_aborted]
    | some mem => simp [queue_init, init_result.is_aborted]
  · intro hm
    subst hm
    rfl
  · intro mem hm
    subst hm
    refine ⟨_, rfl, ?_⟩
    by_cases h1 : rl = 0 <;> by_cases h2 : rr = 0 <;> by_cases h3 : rw = 0 <;>
      simp [h1, h2, h3]

/-! ## One record slot stays free -/

theorem queue_put_blocked_iff (q : queue_t) (src : Nat → uint8_t) (p n : Nat)
    (h0 : q.size ≠ 0) : (queue_put q src p n).is_blocked = true ↔ put_waits q n = true := by
  unfold queue_put
  rw [if_neg h0]
  cases hw : put_waits q n with
  | true => simp [call_result.is_blocked]
  | false =>
    by_cases hb : q.size < q.tail + n <;> simp [hb, call_result.is_blocked]

theorem queue_get_blocked_iff (q : queue_t) (dst : Nat → uint8_t) (p n : Nat) :
    (queue_get q dst p n).is_blocked = true ↔ get_waits q = true := by
  unfold queue_get
  cases hw : get_waits q with
  | true => simp [call_result.is_blocked]
  | false =>
    by_cases hb : q.size < q.head + n <;> by_cases h0 : q.size = 0 <;>
      simp [hb, h0, call_result.is_blocked]

/-- C17: for a capacity `C < 2 ^ 64` and a record size `r < C` dividing `C`, in every state
reached from `queue_init` by returned `queue_put` and `queue_get` calls of `r` bytes,
`head` and `tail` are multiples of `r`, `(tail - head) mod C` is the number of unread
bytes, that number is between 0 and `C - r`, `queue_put` of `r` bytes is held in its wait
loop exactly when it is `C - r`, `queue_get` exactly when it is 0, and the queue holds at
most `C / r - 1` records. -/
theorem one_slot_stays_free (C r : Nat) (mem : Nat → uint8_t) (rl rr rw : Int)
    (q : queue_t) (e : List diag) (ops : List Op) (s : Sys)
    (hrC : r < C) (hd : r ∣ C) (hC : C < SIZE_MOD)
    (hq : queue_init (some mem) rl rr rw C = .ready q e)
    (hsize : ∀ o ∈ ops, o.size = r)
    (hrun : run (Sys.start q) ops = .returned s) :
    r ∣ s.q.head ∧ r ∣ s.q.tail ∧
      ((s.q.tail : Int) - (s.q.head : Int)) % (C : Int) = s.used ∧
      0 ≤ s.used ∧ s.used ≤ (C : Int) - (r : Int) ∧
      (∀ (src : Nat → uint8_t) (p : Nat),
        (queue_put s.q src p r).is_blocked = true ↔ s.used = (C : Int) - (r : Int)) ∧
      (∀ (dst : Nat → uint8_t) (p : Nat),
        (queue_get s.q dst p r).is_blocked = true ↔ s.used = 0) ∧
      (s.sent.length - s.recv.length) / r ≤ C / r - 1 := by
  have hF := finv_of_run C r mem rl rr rw q e ops s hrC hd hC hq hsize hrun
  have hI := hF.inv
  have hle := hI.le
  have hh := hI.head_lt
  have ht := inv_tail_lt hI
  have hu := hI.used_lt
  have hte := hI.tail_eq
  have hr0 : 0 < r := by
    rcases Nat.eq_zero_or_pos r with h | h
    · subst h; have := Nat.eq_zero_of_zero_dvd hd; omega
    · exact h
  have hb : s.q.tail + r ≤ C := dvd_add_le_of_lt r _ _ (finv_tail_dvd hF hd) hd ht
  have h1 : s.sent.length - s.recv.length + r ≤ C :=
    dvd_add_le_of_lt r _ _ hF.used_dvd hd hu
  have hused : s.used = ((s.sent.length - s.recv.length : Nat) : Int) := by
    simp only [Sys.used]; omega
  have hcase := mod_lt_two (s.q.head + (s.sent.length - s.recv.length)) C (by omega)
  rw [← hte] at hcase
  refine ⟨hF.head_dvd, finv_tail_dvd hF hd, ?_, by omega, by omega, ?_, ?_, ?_⟩
  · rw [hused]
    rcases hcase with ⟨k1, k2⟩ | ⟨k1, k2⟩
    · have e1 : (s.q.tail : Int) - (s.q.head : Int)
          = ((s.sent.length - s.recv.length : Nat) : Int) := by omega
      rw [e1]
      exact Int.emod_eq_of_lt (by omega) (by omega)
    · have e1 : (s.q.tail : Int) - (s.q.head : Int)
          = ((s.sent.length - s.recv.length : Nat) : Int) + (-1) * (C : Int) := by omega
      rw [e1, Int.add_mul_emod_self]
      exact Int.emod_eq_of_lt (by omega) (by omega)
  · intro src p
    rw [queue_put_blocked_iff s.q src p r (by rw [hI.size_eq]; omega)]
    constructor
    · intro hw
      have hadd : add_sz s.q.tail r = s.q.tail + r := add_sz_of_lt _ _ (by omega)
      simp only [put_waits, hadd, hI.size_eq, decide_eq_true_eq] at hw
      rcases mod_lt_two (s.q.tail + r) C (by omega) with ⟨k1, k2⟩ | ⟨k1, k2⟩ <;>
        rw [k2] at hw <;> rcases hcase with ⟨j1, j2⟩ | ⟨j1, j2⟩ <;> omega
    · intro hfull
      exact put_waits_of_full hI hC r (by omega) hb
  · intro dst p
    rw [queue_get_blocked_iff, get_waits_iff hI hC]
    omega
  · have h2 : (s.sent.length - s.recv.length + r) / r ≤ C / r := Nat.div_le_div_right h1
    rw [Nat.add_div_right _ hr0] at h2
    omega

/-- Instance of `one_slot_stays_free`: capacity 8, records of 2 bytes, after two puts and
one get. -/
theorem one_slot_stays_free_witness :
    (2 < 8 ∧ 2 ∣ 8 ∧ 8 < SIZE_MOD ∧
      queue_init (some (mem_of [])) 0 0 0 8 = .ready ⟨mem_of [], 8, 0, 0⟩ [] ∧
      (∀ o ∈ two_in_one_out, o.size = 2) ∧
      run (Sys.start ⟨mem_of [], 8, 0, 0⟩) two_in_one_out
        = .returned (state_after (Sys.start ⟨mem_of [], 8, 0, 0⟩) two_in_one_out)) ∧
    (2 ∣ (state_after (Sys.start ⟨mem_of [], 8, 0, 0⟩) two_in_one_out).q.head ∧
      2 ∣ (state_after (Sys.start ⟨mem_of [], 8, 0, 0⟩) two_in_one_out).q.tail ∧
      (((state_after (Sys.start ⟨mem_of [], 8, 0, 0⟩) two_in_one_out).q.tail : Int)
          - ((state_after (Sys.start ⟨mem_of [], 8, 0, 0⟩) two_in_one_out).q.head : Int))
        % ((8 : Nat) : Int)
        = (state_after (Sys.start ⟨mem_of [], 8, 0, 0⟩) two_in_one_out).used ∧
      0 ≤ (state_after (Sys.start ⟨mem_of [], 8, 0, 0⟩) two_in_one_out).used ∧
      (state_after (Sys.start ⟨mem_of [], 8, 0, 0⟩) two_in_one_out).used
        ≤ ((8 : Nat) : Int) - ((2 : Nat) : Int) ∧
      (∀ (src : Nat → uint8_t) (p : Nat),
        (queue_put (state_after (Sys.start ⟨mem_of [], 8, 0, 0⟩) two_in_one_out).q
            src p 2).is_blocked = true ↔
          (state_after (Sys.start ⟨mem_of [], 8, 0, 0⟩) two_in_one_out).used
            = ((8 : Nat) : Int) - ((2 : Nat) : Int)) ∧
      (∀ (dst : Nat → uint8_t) (p : Nat),
        (queue_get (state_after (Sys.start ⟨mem_of [], 8, 0, 0⟩) two_in_one_out).q
            dst p 2).is_blocked = true ↔
          (state_after (Sys.start ⟨mem_of [], 8, 0, 0⟩) two_in_one_out).used = 0) ∧
      ((state_after (Sys.start ⟨mem_of [], 8, 0, 0⟩) two_in_one_out).sent.length
          - (state_after (Sys.start ⟨mem_of [], 8, 0, 0⟩) two_in_one_out).recv.length) / 2
        ≤ 8 / 2 - 1) :=
  ⟨⟨by decide, by decide, by decide, rfl,
      by intro o ho; simp [two_in_one_out] at ho; rcases ho with rfl | rfl | rfl <;> rfl,
      rfl⟩,
    one_slot_stays_free 8 2 (mem_of []) 0 0 0 ⟨mem_of [], 8, 0, 0⟩ [] two_in_one_out
      (state_after (Sys.start ⟨mem_of [], 8, 0, 0⟩) two_in_one_out)
      (by decide) (by decide) (by decide) rfl
      (by intro o ho; simp [two_in_one_out] at ho; rcases ho with rfl | rfl | rfl <;> rfl)
      rfl⟩

/-! ## Empty and full, as the cursors show them -/

/-- C18: on a queue whose capacity is a `size_t` value and with `head` below the capacity,
after a `queue_put` of any size has returned the cursors satisfy `tail ≠ head`, the wait
condition of `queue_get` is false and no `queue_get` is held in its wait loop. -/
theorem put_leaves_queue_nonempty (q : queue_t) (src : Nat → uint8_t) (p n : Nat)
    (q1 : queue_t) (p1 : Nat) (hsz : q.size < SIZE_MOD) (hh : q.head < q.size)
    (h : queue_put q src p n = .returned (q1, p1)) :
    q1.tail ≠ q1.head ∧ get_waits q1 = false ∧
      ∀ (dst : Nat → uint8_t) (pd m : Nat), (queue_get q1 dst pd m).is_blocked = false := by
  obtain ⟨h0, hw, _, hr⟩ := queue_put_returned q src p n (q1, p1) h
  simp only [Prod.mk.injEq] at hr
  obtain ⟨h1, _⟩ := hr
  have hne : add_sz q.tail n % q.size ≠ q.head := by
    simpa [put_waits] using hw
  have hlt : add_sz q.tail n % q.size < q.size := Nat.mod_lt _ (by omega)
  have hgw : get_waits q1 = false := by
    rw [h1]
    simp only [get_waits, decide_eq_false_iff_not]
    rw [sub_sz_eq_zero_iff _ _ (by omega) (by omega)]
    exact hne
  refine ⟨by rw [h1]; exact hne, hgw, ?_⟩
  intro dst pd m
  cases hb : (queue_get q1 dst pd m).is_blocked with
  | false => rfl
  | true =>
    rw [(queue_get_blocked_iff q1 dst pd m).mp hb] at hgw
    exact Bool.noConfusion hgw

/-- Instance of `put_leaves_queue_nonempty`: capacity 8, `head = 1`, `tail = 5`, a put of 3
bytes. -/
theorem put_leaves_queue_nonempty_witness :
    ((⟨mem_of [], 8, 1, 5⟩ : queue_t).size < SIZE_MOD ∧
      (⟨mem_of [], 8, 1, 5⟩ : queue_t).head < (⟨mem_of [], 8, 1, 5⟩ : queue_t).size ∧
      queue_put ⟨mem_of [], 8, 1, 5⟩ (mem_of [1, 2, 3]) 0 3
        = .returned (⟨memcpy (mem_of []) 5 (mem_of [1, 2, 3]) 0 3, 8, 1, 0⟩, 3)) ∧
    ((⟨memcpy (mem_of []) 5 (mem_of [1, 2, 3]) 0 3, 8, 1, 0⟩ : queue_t).tail
        ≠ (⟨memcpy (mem_of []) 5 (mem_of [1, 2, 3]) 0 3, 8, 1, 0⟩ : queue_t).head ∧
      get_waits ⟨memcpy (mem_of []) 5 (mem_of [1, 2, 3]) 0 3, 8, 1, 0⟩ = false ∧
      ∀ (dst : Nat → uint8_t) (pd m : Nat),
        (queue_get ⟨memcpy (mem_of []) 5 (mem_of [1, 2, 3]) 0 3, 8, 1, 0⟩
          dst pd m).is_blocked = false) :=
  ⟨⟨by decide, by decide, rfl⟩,
    put_leaves_queue_nonempty ⟨mem_of [], 8, 1, 5⟩ (mem_of [1, 2, 3]) 0 3 _ _
      (by decide) (by decide) rfl⟩

/-- C19, as stated, fails on capacity 3 with `head = tail = 1`: the size
`2 ^ 64 - 1 = 18446744073709551615` is a multiple of 3, the `size_t` sum `tail + size` wraps
to 0, `0 % 3` is not `head`, and the `queue_put` leaves its wait loop. -/
theorem whole_buffer_put_waits_counterexample :
    3 ∣ 18446744073709551615 ∧ 18446744073709551615 < SIZE_MOD ∧
    add_sz 1 18446744073709551615 = 0 ∧
    put_waits ⟨mem_of [], 3, 1, 1⟩ 18446744073709551615 = false ∧
    (queue_put ⟨mem_of [], 3, 1, 1⟩ (mem_of []) 0 18446744073709551615).is_blocked = false ∧
    ¬ whole_buffer_put_waits 3 := by
  refine ⟨by decide, by decide, by decide, by decide, by decide, ?_⟩
  intro h
  have := h ⟨mem_of [], 3, 1, 1⟩ (mem_of []) 0 18446744073709551615 rfl rfl
    (by decide) (by decide) (by decide)
  exact absurd this (by decide)

/-- C19, amended: in every state with `head = tail` below a capacity `C < 2 ^ 64`, for every
`n` that is a multiple of `C` with `tail + n < 2 ^ 64` (so `n = 0`, and `n = C` when
`C ≤ 2 ^ 63`), `queue_put` of `n` bytes is held in its wait loop and `queue_get` of any
size is held in its wait loop; a held call leaves the state as it is, so every non-empty
sequence of pending calls made of that put and of gets ends held at its first call. -/
theorem whole_buffer_put_deadlocks (q : queue_t) (src : Nat → uint8_t) (p n : Nat)
    (hsz : q.size < SIZE_MOD) (he : q.head = q.tail) (hh : q.head < q.size)
    (hd : q.size ∣ n) (hn : q.tail + n < SIZE_MOD) :
    (queue_put q src p n).is_blocked = true ∧
    (∀ (dst : Nat → uint8_t) (pd m : Nat), (queue_get q dst pd m).is_blocked = true) ∧
    (∀ (sent recv : List uint8_t) (o : Op) (os : List Op),
      (o.is_put = true → o.size = n) →
      run ⟨q, sent, recv⟩ (o :: os) = .blocked) := by
  have h0 : q.size ≠ 0 := by omega
  have hpw : put_waits q n = true := by
    have hadd : add_sz q.tail n = q.tail + n := add_sz_of_lt _ _ hn
    obtain ⟨k, hk⟩ := hd
    simp only [put_waits, hadd, decide_eq_true_eq]
    rw [hk, Nat.add_mul_mod_self_left, ← he]
    exact Nat.mod_eq_of_lt hh
  have hgw : get_waits q = true := by
    simp only [get_waits, decide_eq_true_eq]
    rw [sub_sz_eq_zero_iff _ _ (by omega) (by omega)]
    exact he.symm
  have hput : ∀ (src1 : Nat → uint8_t) (p1 : Nat), queue_put q src1 p1 n = .blocked := by
    intro src1 p1
    unfold queue_put
    rw [if_neg h0, hpw]
    rfl
  have hget : ∀ (dst : Nat → uint8_t) (pd m : Nat), queue_get q dst pd m = .blocked := by
    intro dst pd m
    unfold queue_get
    rw [hgw]
    rfl
  refine ⟨by rw [hput]; rfl, fun dst pd m => by rw [hget]; rfl, ?_⟩
  intro sent recv o os ho
  cases o with
  | put src1 p1 n1 =>
    have : n1 = n := ho rfl
    subst this
    simp only [RingBuffer.run, RingBuffer.step, hput]
  | get dst pd m =>
    simp only [RingBuffer.run, RingBuffer.step, hget]

/-- Instance of `whole_buffer_put_deadlocks`: the fresh queue of capacity 8 and a put of 8
bytes. -/
theorem whole_buffer_put_deadlocks_witness :
    ((⟨mem_of [], 8, 0, 0⟩ : queue_t).size < SIZE_MOD ∧
      (⟨mem_of [], 8, 0, 0⟩ : queue_t).head = (⟨mem_of [], 8, 0, 0⟩ : queue_t).tail ∧
      (⟨mem_of [], 8, 0, 0⟩ : queue_t).head < (⟨mem_of [], 8, 0, 0⟩ : queue_t).size ∧
      (⟨mem_of [], 8, 0, 0⟩ : queue_t).size ∣ 8 ∧
      (⟨mem_of [], 8, 0, 0⟩ : queue_t).tail + 8 < SIZE_MOD) ∧
    ((queue_put ⟨mem_of [], 8, 0, 0⟩ (mem_of [1, 2, 3, 4, 5, 6, 7, 8]) 0 8).is_blocked = true ∧
    (∀ (dst : Nat → uint8_t) (pd m : Nat),
      (queue_get ⟨mem_of [], 8, 0, 0⟩ dst pd m).is_blocked = true) ∧
    (∀ (sent recv : List uint8_t) (o : Op) (os : List Op),
      (o.is_put = true → o.size = 8) →
      run ⟨⟨mem_of [], 8, 0, 0⟩, sent, recv⟩ (o :: os) = .blocked)) :=
  ⟨⟨by decide, rfl, by decide, by decide, by decide⟩,
    whole_buffer_put_deadlocks ⟨mem_of [], 8, 0, 0⟩ (mem_of [1, 2, 3, 4, 5, 6, 7, 8]) 0 8
      (by decide) rfl (by decide) (by decide) (by decide)⟩

/-! ## The comparator of `test.c` -/

/-- C20: for all `a` and `b` (in particular all 32-bit unsigned ones), `comp` is 0 if and only
if `a = b`, is 1 when `a > b` and is `2 ^ 32 - 1` when `a < b`; read as a signed 32-bit
integer the result is negative, zero or positive as `a` is below, equal to or above `b`,
and `comp a b = -comp b a`. -/
theorem comp_orders (a b : Nat) :
    (comp a b = 0 ↔ a = b) ∧ (b < a → comp a b = 1) ∧ (a < b → comp a b = 2 ^ 32 - 1) ∧
      (as_int32 (comp a b) < 0 ↔ a < b) ∧ (as_int32 (comp a b) = 0 ↔ a = b) ∧
      (0 < as_int32 (comp a b) ↔ b < a) ∧
      as_int32 (comp a b) = -as_int32 (comp b a) := by
  have e1 : to_uint32 1 = 1 := by decide
  have e2 : to_uint32 (-1) = 4294967295 := by decide
  have e3 : to_uint32 0 = 0 := by decide
  have s1 : as_int32 1 = 1 := by decide
  have s2 : as_int32 4294967295 = -1 := by decide
  have s3 : as_int32 0 = 0 := by decide
  rcases Nat.lt_trichotomy a b with hlt | heq | hgt
  · have c1 : comp a b = 4294967295 := by
      simp only [comp, e2, if_neg (Nat.not_lt.mpr (Nat.le_of_lt hlt)), if_pos hlt]
    have c2 : comp b a = 1 := by simp only [comp, e1, if_pos hlt]
    rw [c1, c2, s1, s2]
    refine ⟨?_, ?_, ?_, ?_, ?_, ?_, ?_⟩ <;> omega
  · subst heq
    have c1 : comp a a = 0 := by simp only [comp, e3, if_neg (Nat.lt_irrefl a)]
    rw [c1, s3]
    refine ⟨?_, ?_, ?_, ?_, ?_, ?_, ?_⟩ <;> omega
  · have c1 : comp a b = 1 := by simp only [comp, e1, if_pos hgt]
    have c2 : comp b a = 4294967295 := by
      simp only [comp, e2, if_neg (Nat.not_lt.mpr (Nat.le_of_lt hgt)), if_pos hgt]
    rw [c1, c2, s1, s2]
    refine ⟨?_, ?_, ?_, ?_, ?_, ?_, ?_⟩ <;> omega

end RingBuffer
